import Mathlib

/-!
Verification development for the carecam video-analysis worker.

The definitions below are a shallow embedding of the pure data flow of
`src/worker/analyzer-core.mjs` and `src/worker/process-video-job.mjs`.
JavaScript numbers are modelled as rationals (`ℚ`); a JavaScript value that
is `NaN` or `±Infinity` (for which `Number.isFinite` is `false`) is
modelled as `Option.none`.  `Number(x.toFixed(3))` is modelled by `round3`
below: ECMA's `toFixed` picks the closest multiple of 10⁻³, preferring the
larger one on ties, which is exactly Mathlib's `round` (⌊x + 1/2⌋) scaled
by 1000.  Stateful code (the retry loop of `callWithPolicy`, the job
processor's storage traffic) is embedded as explicit state passing over
oracle scripts, with an event trace recording the externally visible
actions.
-/

namespace Carecam

/-! ### String helpers

JavaScript string primitives used by the worker (`includes`, `toLowerCase`,
`trim`, `split`, `startsWith`, `endsWith`), re-implemented structurally on
`List Char` so that every definition is kernel-executable.  `toLowerCase`
is modelled with `Char.toLower` (the worker only compares ASCII keywords).
-/

def listStartsWith : List Char → List Char → Bool
  | _, [] => true
  | [], _ :: _ => false
  | a :: as, b :: bs => a == b && listStartsWith as bs

/-- `listHasSub n l` decides whether `n` occurs as a contiguous sublist of `l`
(JavaScript `l.includes(n)`). -/
def listHasSub (n : List Char) : List Char → Bool
  | [] => listStartsWith [] n
  | c :: t => listStartsWith (c :: t) n || listHasSub n t

/-- JavaScript `haystack.includes(needle)`. -/
def strIncludes (haystack needle : String) : Bool :=
  listHasSub needle.data haystack.data

/-- JavaScript `s.toLowerCase()` (ASCII case folding). -/
def strLower (s : String) : String :=
  String.mk (s.data.map Char.toLower)

/-- JavaScript `s.trim()`. -/
def strTrim (s : String) : String :=
  String.mk (((s.data.dropWhile Char.isWhitespace).reverse.dropWhile
    Char.isWhitespace).reverse)

/-- JavaScript `s.startsWith(p)`. -/
def strStartsWith (s p : String) : Bool :=
  listStartsWith s.data p.data

/-- JavaScript `s.endsWith(p)`. -/
def strEndsWith (s p : String) : Bool :=
  listStartsWith s.data.reverse p.data.reverse

def splitCharAux (sep : Char) : List Char → List (List Char)
  | [] => [[]]
  | c :: t =>
    match splitCharAux sep t with
    | [] => [[c]]
    | h :: r => if c == sep then [] :: h :: r else (c :: h) :: r

/-- JavaScript `s.split(sep)` for a one-character separator: splits at every
occurrence, keeping empty pieces (so a trailing separator yields a trailing
empty string, as in ECMAScript). -/
def strSplit (s : String) (sep : Char) : List String :=
  (splitCharAux sep s.data).map String.mk

/-! ### Rounding to three decimals -/

/-- `Number(x.toFixed(3))`: the closest multiple of 1/1000, ties toward the
larger value — Mathlib's `round` scaled by 1000. -/
def round3 (q : ℚ) : ℚ := (round (q * 1000) : ℤ) / 1000

/-- Values with at most three decimals (fixed points of `round3`). -/
def Dec3 (q : ℚ) : Prop := ∃ z : ℤ, q = (z : ℚ) / 1000

theorem round3_dec3 (q : ℚ) : Dec3 (round3 q) := ⟨round (q * 1000), rfl⟩

theorem dec3_round3_eq {q : ℚ} (h : Dec3 q) : round3 q = q := by
  obtain ⟨z, rfl⟩ := h
  unfold round3
  rw [div_mul_cancel₀ _ (by norm_num : (1000 : ℚ) ≠ 0), round_intCast]

theorem abs_round3_sub (q : ℚ) : |round3 q - q| ≤ 1 / 2000 := by
  have h := abs_sub_round (q * 1000)
  rw [abs_sub_comm] at h
  have h2 : round3 q - q = ((round (q * 1000) : ℚ) - q * 1000) / 1000 := by
    unfold round3
    rw [sub_div]
    congr 1
    rw [mul_comm, mul_div_assoc]
    field_simp
  rw [h2, abs_div]
  rw [show |(1000 : ℚ)| = 1000 from abs_of_pos (by norm_num)]
  linarith

theorem round3_sub_ge {a b c : ℚ} (h : c ≤ b - a) :
    c - 1 / 1000 ≤ round3 b - round3 a := by
  have ha := abs_round3_sub a
  have hb := abs_round3_sub b
  rw [abs_le] at ha hb
  linarith [ha.1, ha.2, hb.1, hb.2]

theorem dec3_max {a b : ℚ} (ha : Dec3 a) (hb : Dec3 b) : Dec3 (max a b) := by
  obtain ⟨x, rfl⟩ := ha
  obtain ⟨y, rfl⟩ := hb
  rcases le_total ((x : ℚ) / 1000) ((y : ℚ) / 1000) with h | h
  · exact ⟨y, by rw [max_eq_right h]⟩
  · exact ⟨x, by rw [max_eq_left h]⟩

/-! ### Analyzer constants (analyzer-core.mjs lines 6–19; environment
overrides left at their defaults) -/

def CHUNK_SECONDS : ℚ := 30
def CHUNK_OVERLAP_SECONDS : ℚ := 4
def MERGE_GAP_SECONDS : ℚ := 5 / 2
def VALIDATION_MARGIN_SECONDS : ℚ := 3
def MIN_ACTION_DURATION_SECONDS : ℚ := 4 / 5
def MAX_TRANSIENT_RETRIES : Nat := 3

def VISUAL_BEHAVIORS : List String :=
  ["hitting the therapist with hand", "kicking the therapist with foot",
   "throwing objects", "non compliance", "pushing/shoving a person",
   "out of seat", "hand-flapping repeatedly", "body-rocking",
   "pulling or twirling hair"]

def AUDIO_BEHAVIORS : List String :=
  ["crying", "screaming", "whimpering", "echolalia", "laughing"]

def BEHAVIORS : List String := VISUAL_BEHAVIORS ++ AUDIO_BEHAVIORS

/-! ### Segmentation planner (`buildSegments`, analyzer-core.mjs 291–304) -/

structure Segment where
  startSec : ℚ
  endSec : ℚ
deriving DecidableEq, Repr

/-- One iteration of the `while (start < durationSec)` loop.  The loop
terminates because `start` advances by `CHUNK − OVERLAP = 26` whenever it
recurs. -/
def buildSegmentsAux (durationSec : ℚ) (start : ℚ) : List Segment :=
  if h : start < durationSec then
    let e := min (start + CHUNK_SECONDS) durationSec
    let seg : Segment := ⟨round3 start, round3 e⟩
    if durationSec ≤ e then [seg]
    else seg :: buildSegmentsAux durationSec (max 0 (e - CHUNK_OVERLAP_SECONDS))
  else []
termination_by (⌈durationSec - start⌉).toNat
decreasing_by
  rename_i hnle
  simp only [CHUNK_SECONDS, CHUNK_OVERLAP_SECONDS] at *
  have hlt : start + 30 < durationSec := by
    by_contra hc
    push_neg at hc
    exact hnle (le_min hc le_rfl)
  have hmax : start + 26 ≤ max 0 (min (start + 30) durationSec - 4) := by
    rw [min_eq_left hlt.le]
    calc start + 26 = start + 30 - 4 := by ring
    _ ≤ max 0 (start + 30 - 4) := le_max_right _ _
  have h1 : durationSec - max 0 (min (start + 30) durationSec - 4) ≤
      durationSec - start - 26 := by linarith
  have hpos : 0 < ⌈durationSec - start⌉ := by
    rw [Int.lt_ceil]; push_cast; linarith
  have hle : ⌈durationSec - max 0 (min (start + 30) durationSec - 4)⌉ ≤
      ⌈durationSec - start⌉ - 26 := by
    have h3 : ⌈durationSec - max 0 (min (start + 30) durationSec - 4)⌉ ≤
        ⌈((durationSec - start) - 26 : ℚ)⌉ := Int.ceil_le_ceil h1
    rw [show ((durationSec - start) - 26 : ℚ) =
      (durationSec - start) + ((-26 : ℤ) : ℚ) by push_cast; ring,
      Int.ceil_add_int] at h3
    omega
  omega

def buildSegments (durationSec : ℚ) : List Segment :=
  buildSegmentsAux durationSec 0

/-! ### clamp and enforceMinimumDuration (analyzer-core.mjs 513–530) -/

def clamp (value min' max' : ℚ) : ℚ := min max' (max min' value)

/-- `enforceMinimumDuration`: `Option.none` inputs model non-finite numbers
(for which `Number.isFinite` is false and the function returns `null`). -/
def enforceMinimumDuration (startSec endSec : Option ℚ)
    (minDurationSec : ℚ := MIN_ACTION_DURATION_SECONDS) : Option (ℚ × ℚ) :=
  match startSec, endSec with
  | some s, some e =>
    if minDurationSec ≤ e - s then some (s, e) else some (s, s + minDurationSec)
  | _, _ => none

/-! ### mergeBehaviors (analyzer-core.mjs 532–560) -/

structure Span where
  behavior : String
  modality : String
  startSec : ℚ
  endSec : ℚ
  notes : String
deriving DecidableEq, Repr

instance : Inhabited Span := ⟨⟨"", "", 0, 0, ""⟩⟩

/-- The `Map` key `` `${item.behavior}|${item.modality}` ``. -/
def spanKey (s : Span) : String := s.behavior ++ "|" ++ s.modality

/-- State of the merge loop: the output list under construction plus the
`latestByKey` map (an association list; `lookup` returns the most recent
binding, matching `Map.get` after `Map.set` overwrites). -/
structure MergeState where
  merged : List Span
  latest : List (String × Nat)

/-- Merging of `item.notes` into `last.notes`
(`if (item.notes && !last.notes.includes(item.notes)) ...`). -/
def mergeNotes (lastNotes itemNotes : String) : String :=
  if itemNotes ≠ "" ∧ strIncludes lastNotes itemNotes = false then
    (if lastNotes ≠ "" then lastNotes ++ "; " ++ itemNotes else itemNotes)
  else lastNotes

/-- The span produced when `item` is absorbed into `last`
(`last.endSec = Math.max(...)` plus the notes append). -/
def mergedSpan (last item : Span) : Span :=
  { last with endSec := max last.endSec item.endSec,
              notes := mergeNotes last.notes item.notes }

/-- The body of the `for (const item of sorted)` loop. -/
def mergeStep (st : MergeState) (item : Span) : MergeState :=
  let key := spanKey item
  match st.latest.lookup key with
  | none =>
    { merged := st.merged ++ [item], latest := (key, st.merged.length) :: st.latest }
  | some lastIndex =>
    let last := st.merged.getD lastIndex default
    if item.startSec ≤ last.endSec + MERGE_GAP_SECONDS then
      { st with merged := st.merged.set lastIndex (mergedSpan last item) }
    else
      { merged := st.merged ++ [item], latest := (key, st.merged.length) :: st.latest }

/-- The comparator's ordering: `a.startSec - b.startSec ≤ 0`. -/
def byStart (a b : Span) : Prop := a.startSec ≤ b.startSec

instance : DecidableRel byStart :=
  fun a b => inferInstanceAs (Decidable (a.startSec ≤ b.startSec))

instance : IsTotal Span byStart := ⟨fun a b => le_total a.startSec b.startSec⟩

instance : IsTrans Span byStart := ⟨fun _ _ _ hab hbc => le_trans hab hbc⟩

/-- `[...items].sort((a, b) => a.startSec - b.startSec)`: ECMAScript's sort
is stable, so any stable sort by `startSec` is the faithful embedding; we
use insertion sort. -/
def sortByStart (items : List Span) : List Span :=
  items.insertionSort byStart

def mergePass (items : List Span) : List Span :=
  (items.foldl mergeStep ⟨[], []⟩).merged

def mergeBehaviors (items : List Span) : List Span :=
  mergePass (sortByStart items)

/-! ### Detection-stage post-processing (analyzeVideo, analyzer-core.mjs
678–720).  The remote model's response is an oracle; everything the worker
does with it is embedded. -/

/-- One object of a parsed detection response.  Fields the model may omit
are the empty string / `none` (`Number(undefined)` is `NaN`, modelled as
`none`; `String(x || "")` of an absent field is `""`).  Non-object array
entries are dropped by the worker before this point. -/
structure RawDetectionItem where
  behavior : String
  modality : String
  startSec : Option ℚ
  endSec : Option ℚ
  notes : String
deriving DecidableEq, Repr

/-- Outcome of the detection request(s) for one segment, after
`callWithPolicy` and both parse attempts. -/
inductive DetectOutcome
  | skipUnit                       -- SkipUnit raised → segment dropped
  | failed                         -- any other error → segment dropped
  | notArray                       -- still not an array after strict retry
  | items (l : List RawDetectionItem)
deriving DecidableEq

/-- First `.map`: lower-case/trim behavior, infer modality, shift times by
`segment.startSec` (NaN propagates through the addition). -/
def shiftItem (seg : Segment) (item : RawDetectionItem) : RawDetectionItem :=
  let behavior := strTrim (strLower item.behavior)
  let inferredModality :=
    if VISUAL_BEHAVIORS.contains behavior then "visual"
    else if AUDIO_BEHAVIORS.contains behavior then "audio"
    else ""
  let providedModality := strTrim (strLower item.modality)
  { behavior := behavior,
    modality := if providedModality != "" then providedModality else inferredModality,
    startSec := item.startSec.map (· + seg.startSec),
    endSec := item.endSec.map (· + seg.startSec),
    notes := strTrim item.notes }

/-- Second `.map`: apply `enforceMinimumDuration`, yielding `null` for
non-finite bounds. -/
def adjustItem (it : RawDetectionItem) : Option Span :=
  (enforceMinimumDuration it.startSec it.endSec).map fun p =>
    ⟨it.behavior, it.modality, p.1, p.2, it.notes⟩

/-- The `.filter`: closed vocabulary, known modality, finite bounds (already
guaranteed by `adjustItem`), `endSec > startSec`. -/
def detectionFilter (s : Span) : Bool :=
  BEHAVIORS.contains s.behavior &&
  (s.modality == "visual" || s.modality == "audio") &&
  decide (s.startSec < s.endSec)

/-- Final `.map`: round stored times to three decimals. -/
def round3Span (s : Span) : Span :=
  { s with startSec := round3 s.startSec, endSec := round3 s.endSec }

def processDetections (seg : Segment) (out : DetectOutcome) : List Span :=
  match out with
  | .items l =>
    (l.map (shiftItem seg)).filterMap fun it =>
      (adjustItem it).bind fun s =>
        if detectionFilter s then some (round3Span s) else none
  | _ => []

/-! ### Validation-stage post-processing (analyzer-core.mjs 744–839) -/

/-- A validated entry: the (possibly refined) span plus the `correct` /
`skipped` flags the worker attaches. -/
structure VEntry where
  span : Span
  correct : Bool
  skipped : Bool
  skipReason : Option String
deriving DecidableEq, Repr

/-- Outcome of the validation request(s) for one merged span. -/
inductive ValOutcome
  | skipUnit                       -- SkipUnit raised by callWithPolicy
  | failed                         -- any other error (defensive catch)
  | notObject                      -- still not a JSON object after strict retry
  | parsed (correct : Bool) (startSec endSec : Option ℚ)
deriving DecidableEq

def validateUnit (durationSec : ℚ) (item : Span) (out : ValOutcome) : VEntry :=
  let localStart := max 0 (item.startSec - VALIDATION_MARGIN_SECONDS)
  let localEnd := min durationSec (item.endSec + VALIDATION_MARGIN_SECONDS)
  match out with
  | .notObject => ⟨item, false, true, some "invalid_validation_payload"⟩
  | .parsed correct s e =>
    if correct then
      let refinedStartGlobal :=
        match s with
        | some v => clamp (localStart + v) localStart localEnd
        | none => item.startSec
      let refinedEndGlobal :=
        match e with
        | some v => clamp (localStart + v) (refinedStartGlobal + 1 / 100) localEnd
        | none => item.endSec
      match enforceMinimumDuration (some refinedStartGlobal) (some refinedEndGlobal) with
      | none => ⟨item, false, true, some "invalid_refined_duration"⟩
      | some p =>
        ⟨{ item with startSec := round3 p.1, endSec := round3 p.2 }, true, false, none⟩
    else ⟨item, false, false, none⟩
  | .skipUnit => ⟨item, true, true, some "validation_skipped_assumed_true"⟩
  | .failed => ⟨item, true, true, some "validation_failed_assumed_true"⟩

/-! ### The analyzer's artifact-level data flow (analyzeVideo).  The bounded
worker pool preserves the index→result mapping, so the concurrent stages are
embedded as index-ordered maps over oracle outcomes. -/

structure AnalyzerRun where
  durationSec : ℚ
  detect : Nat → DetectOutcome
  validate : Nat → ValOutcome

/-- Contents of `behaviors_raw.json`. -/
def rawDetections (run : AnalyzerRun) : List Span :=
  (buildSegments run.durationSec).enum.flatMap fun p =>
    processDetections p.2 (run.detect p.1)

/-- First merge, times re-rounded (input to validation). -/
def mergedBeforeValidation (run : AnalyzerRun) : List Span :=
  (mergeBehaviors (rawDetections run)).map round3Span

def validatedEntries (run : AnalyzerRun) : List VEntry :=
  (mergedBeforeValidation run).enum.map fun p =>
    validateUnit run.durationSec p.2 (run.validate p.1)

/-- Contents of `behaviors_validated.json`. -/
def validatedOnly (run : AnalyzerRun) : List VEntry :=
  (validatedEntries run).filter (·.correct)

/-- `behaviors` of `behaviors_final.json` (second merge, re-rounded). -/
def finalBehaviors (run : AnalyzerRun) : List Span :=
  (mergeBehaviors ((validatedOnly run).map (·.span))).map round3Span

/-- Every behavior object appearing in any emitted artifact. -/
def emittedArtifactSpans (run : AnalyzerRun) : List Span :=
  rawDetections run ++ (validatedOnly run).map (·.span) ++ finalBehaviors run

/-! ### Policy-wrapped call (analyzer-core.mjs 108–130, 165–195).

`callWithPolicy` is embedded as a state machine over a script: the list of
outcomes successive invocations of the thunk (under its timeout) produce.
A timeout appears as an error whose message contains "timed out".  The
trace records the externally visible suspension points. -/

structure ErrorInfo where
  status : Option Int
  code : Option Int
  message : String
deriving DecidableEq, Repr

def isRateLimitError (e : ErrorInfo) : Bool :=
  e.status == some 429 || e.code == some 429 ||
  strIncludes (strLower e.message) "429" ||
  strIncludes (strLower e.message) "rate limit" ||
  strIncludes (strLower e.message) "resource_exhausted"

/-- `Number(error?.status || error?.code)`: `||` keeps `status` unless it is
falsy (absent or 0); `Number(undefined)` is `NaN` (`none`). -/
def statusOrCode (e : ErrorInfo) : Option Int :=
  match e.status with
  | some s => if s = 0 then e.code else some s
  | none => e.code

def isRetryableError (e : ErrorInfo) : Bool :=
  isRateLimitError e ||
  (match statusOrCode e with | some n => decide (500 ≤ n) | none => false) ||
  strIncludes (strLower e.message) "internal error" ||
  strIncludes (strLower e.message) "unavailable" ||
  strIncludes (strLower e.message) "deadline exceeded" ||
  strIncludes (strLower e.message) "timed out"

inductive PolicyEvent
  | barrier        -- await globalRateController.waitIfPaused()
  | attempt        -- one invocation of the thunk
  | pauseTrigger   -- await globalRateController.triggerPause(label)
  | retrySleep     -- await sleep(TRANSIENT_RETRY_INTERVAL_MS)
deriving DecidableEq, Repr

inductive CallResult (α : Type) where
  | success (v : α)
  | skipUnit (message : String)
  | scriptEnded
deriving DecidableEq

/-- The `while (true)` loop of `callWithPolicy`, with its two counters.
Note `String(error?.message || error)` is modelled as the error's message. -/
def callWithPolicyGo {α : Type} (label : String) :
    Nat → Nat → List (Except ErrorInfo α) → CallResult α × List PolicyEvent
  | _, _, [] => (.scriptEnded, [.barrier])
  | rateLimitHitCount, transientRetryCount, o :: rest =>
    match o with
    | .ok v => (.success v, [.barrier, .attempt])
    | .error e =>
      if isRateLimitError e then
        if rateLimitHitCount == 0 then
          let r := callWithPolicyGo label 1 transientRetryCount rest
          (r.1, .barrier :: .attempt :: .pauseTrigger :: r.2)
        else
          (.skipUnit ("[" ++ label ++ "] Skipped after second rate-limit event."),
            [.barrier, .attempt])
      else if !isRetryableError e || MAX_TRANSIENT_RETRIES ≤ transientRetryCount then
        (.skipUnit ("[" ++ label ++ "] skipped after " ++
            toString transientRetryCount ++ " retries. Last error: " ++ e.message),
          [.barrier, .attempt])
      else
        let r := callWithPolicyGo label rateLimitHitCount (transientRetryCount + 1) rest
        (r.1, .barrier :: .attempt :: .retrySleep :: r.2)

def callWithPolicy {α : Type} (label : String) (script : List (Except ErrorInfo α)) :
    CallResult α × List PolicyEvent :=
  callWithPolicyGo label 0 0 script

/-- Modelled from the spec's words (claim C3 / spec §4.2), to be compared
with `callWithPolicy`: rate-limit errors pause-and-retry once then skip;
retryable errors retry after the fixed interval at most 3 times then skip
with the last error message; other errors skip immediately; success is
returned; the barrier is awaited before every attempt.  "status ≥ 500"
reads the numeric status the error carries (its `status` or `code` field),
and the timeout classification matches the timeout wrapper's "timed out"
message.  Skip-message formats are taken from the code (the spec only
requires the last error message to be carried). -/
def specIsRetryable (e : ErrorInfo) : Bool :=
  (match statusOrCode e with | some n => decide (500 ≤ n) | none => false) ||
  strIncludes (strLower e.message) "internal error" ||
  strIncludes (strLower e.message) "unavailable" ||
  strIncludes (strLower e.message) "deadline exceeded" ||
  strIncludes (strLower e.message) "timed out"

def policySpec {α : Type} (label : String) :
    Nat → Nat → List (Except ErrorInfo α) → CallResult α × List PolicyEvent
  | _, _, [] => (.scriptEnded, [.barrier])
  | rateLimitSeen, retriesUsed, o :: rest =>
    match o with
    | .ok v => (.success v, [.barrier, .attempt])
    | .error e =>
      if isRateLimitError e then
        -- first occurrence: global pause, then retry; second: SkipUnit
        if rateLimitSeen == 0 then
          let r := policySpec label 1 retriesUsed rest
          (r.1, .barrier :: .attempt :: .pauseTrigger :: r.2)
        else
          (.skipUnit ("[" ++ label ++ "] Skipped after second rate-limit event."),
            [.barrier, .attempt])
      else if specIsRetryable e then
        -- retried after the fixed interval, at most MAX_TRANSIENT_RETRIES times
        if retriesUsed < MAX_TRANSIENT_RETRIES then
          let r := policySpec label rateLimitSeen (retriesUsed + 1) rest
          (r.1, .barrier :: .attempt :: .retrySleep :: r.2)
        else
          (.skipUnit ("[" ++ label ++ "] skipped after " ++
              toString retriesUsed ++ " retries. Last error: " ++ e.message),
            [.barrier, .attempt])
      else
        -- any other error: SkipUnit immediately
        (.skipUnit ("[" ++ label ++ "] skipped after " ++
            toString retriesUsed ++ " retries. Last error: " ++ e.message),
          [.barrier, .attempt])

/-- Every `attempt` in the trace is immediately preceded by a `barrier`. -/
def attemptsHaveBarrier : List PolicyEvent → Bool
  | [] => true
  | .barrier :: .attempt :: t => attemptsHaveBarrier t
  | .attempt :: _ => false
  | _ :: t => attemptsHaveBarrier t

/-! ### Job processor (process-video-job.mjs).  Blob storage is an
association list of objects; remote failures of the individual steps are
injected by an oracle.  Every storage/media action is recorded in an event
trace. -/

/-- A session record: the fields the worker reads or writes, plus `extra`
standing for any other JSON fields (manual annotations, review notes),
which the worker's spread-based read–modify–write preserves. -/
structure SessionRecord where
  storagePath : Option String := none
  status : Option String := none
  processingStartedAt : Option String := none
  processingError : Option String := none
  pendingReviewAt : Option String := none
  failedAt : Option String := none
  analysisJsonPath : Option String := none
  processedVideoPath : Option String := none
  childIcdCode : Option String := none
  dominantCategory : Option String := none
  behaviorSummary : Option (List (String × Nat)) := none
  workerModel : Option String := none
  workerDurationSec : Option ℚ := none
  workerMergedBehaviorCount : Option Nat := none
  linkedSourceVideoPath : Option String := none
  extra : List (String × String) := []
deriving DecidableEq, Repr

/-- A stored object: a JSON session record, an opaque blob (video or
artifact), or malformed JSON. -/
inductive StoredObj
  | session (r : SessionRecord)
  | blob
  | badJson
deriving DecidableEq, Repr

structure World where
  objects : List (String × StoredObj)
deriving DecidableEq

def getObj (w : World) (path : String) : Option StoredObj :=
  w.objects.lookup path

def setObj (w : World) (path : String) (o : StoredObj) : World :=
  ⟨(path, o) :: w.objects.filter (fun kv => !(kv.1 == path))⟩

inductive JobEvent
  | checkExists (path : String)
  | listWithPrefix (pfx : String)
  | readRecord (path : String)
  | writeRecord (path : String)
  | downloadSource (path : String)
  | analyzeStarted
  | uploadArtifact (path : String)
  | makeTmpDir
  | removeTmpDir
deriving DecidableEq, Repr

def CHILD_VIDEOS_PREFIX : String := "carecam/child_videos/"
def CHILD_VIDEO_SESSIONS_PREFIX : String := "carecam/child_video_sessions"
def CHILD_VIDEO_ANALYSIS_PREFIX : String := "carecam/child_video_analysis"

/-- `parseUploadEpochFromObjectPath` (process-video-job.mjs 53–57):
the leading all-digit prefix of the file name, if any. -/
def parseUploadEpochFromObjectPath (objectName : String) : Option String :=
  let fileName := ((strSplit objectName '/').getLast?).getD ""
  let epochPart := ((strSplit fileName '-').head?).getD ""
  if epochPart != "" && epochPart.data.all Char.isDigit then some epochPart else none

/-- `readJsonFile`: downloading a missing object or parsing malformed JSON
throws. -/
def readJsonFile (w : World) (path : String) : Except String SessionRecord :=
  match getObj w path with
  | some (.session r) => .ok r
  | some _ => .error ("Unexpected token in JSON: " ++ path)
  | none => .error ("No such object: " ++ path)

/-- The scan in `resolveSessionRecordPath`: first record under the sessions
prefix whose `storagePath` equals the event's object name; malformed records
are skipped.  Returns the match plus the `readRecord` events it emitted. -/
def scanSessionFiles (objectName : String) :
    List (String × StoredObj) → Option String × List JobEvent
  | [] => (none, [])
  | (name, obj) :: rest =>
    if strEndsWith name "/" then scanSessionFiles objectName rest
    else
      match obj with
      | .session r =>
        if r.storagePath == some objectName then (some name, [.readRecord name])
        else
          let t := scanSessionFiles objectName rest
          (t.1, .readRecord name :: t.2)
      | _ =>
        let t := scanSessionFiles objectName rest
        (t.1, .readRecord name :: t.2)

/-- `resolveSessionRecordPath` (process-video-job.mjs 74–101).  The listing
enumerates the storage objects under the prefix (in the storage's order;
no claim depends on that order). -/
def resolveSessionRecordPath (w : World) (icdKey objectName : String)
    (uploadEpoch : Option String) : Option String × List JobEvent :=
  let pfx := CHILD_VIDEO_SESSIONS_PREFIX ++ "/" ++ icdKey ++ "/"
  let scanned := scanSessionFiles objectName
    (w.objects.filter (fun kv => strStartsWith kv.1 pfx))
  match uploadEpoch with
  | some epoch =>
    let candidate := CHILD_VIDEO_SESSIONS_PREFIX ++ "/" ++ icdKey ++ "/" ++ epoch ++ ".json"
    if (getObj w candidate).isSome then (some candidate, [.checkExists candidate])
    else (scanned.1, .checkExists candidate :: .listWithPrefix pfx :: scanned.2)
  | none => (scanned.1, .listWithPrefix pfx :: scanned.2)

/-- `behaviorSummary` (process-video-job.mjs 103–110): per-behavior counts in
first-encounter order. -/
def addCount (counts : List (String × Nat)) (key : String) : List (String × Nat) :=
  match counts with
  | [] => [(key, 1)]
  | (k, n) :: rest => if k == key then (k, n + 1) :: rest else (k, n) :: addCount rest key

def behaviorSummary (behaviors : List Span) : List (String × Nat) :=
  behaviors.foldl (fun acc e => addCount acc e.behavior) []

/-- What the job needs from `analyzeVideo`'s return value. -/
structure AnalysisOut where
  durationSec : ℚ
  dominantCategory : Option String
  behaviors : List Span
deriving DecidableEq, Repr

/-- Oracle for the job's remote interactions: timestamps, and the outcome of
each fallible step (`none` = the step succeeded). -/
structure JobOracle where
  startedAt : String
  finishedAt : String
  epochNow : String
  geminiModel : String
  processingWriteError : Option String := none
  downloadError : Option String := none
  analysisResult : Except String AnalysisOut
  uploadError : Option String := none

inductive JobResult
  | ignored (reason : String) (sessionRecordPath : Option String)
  | ok (sessionRecordPath analysisJsonPath processedVideoPath : String)
deriving DecidableEq, Repr

/-- The `catch` block of `processVideoObject` (re-read, write `Failed`,
re-raise) followed by the `finally` (remove the temp dir). -/
def failJob (w : World) (path msg ts : String) (ev : List JobEvent) :
    Except String JobResult × World × List JobEvent :=
  match readJsonFile w path with
  | .ok existing =>
    let w2 := setObj w path (.session { existing with
      status := some "Failed", failedAt := some ts, processingError := some msg })
    (.error msg, w2, ev ++ [.readRecord path, .writeRecord path, .removeTmpDir])
  | .error msg2 => (.error msg2, w, ev ++ [.readRecord path, .removeTmpDir])

/-- Steps 6–7 of the job (the `try` block): download, analyze, upload the
four artifacts, re-read the session and write the merged success record.
`Promise.all`'s uploads are recorded in program order. -/
def runJob (w : World) (o : JobOracle) (objectName icdKey : String)
    (uploadEpoch : Option String) (sessionRecordPath : String)
    (ev : List JobEvent) : Except String JobResult × World × List JobEvent :=
  match o.downloadError with
  | some msg => failJob w sessionRecordPath msg o.finishedAt
      (ev ++ [.downloadSource objectName])
  | none =>
    match o.analysisResult with
    | .error msg => failJob w sessionRecordPath msg o.finishedAt
        (ev ++ [.downloadSource objectName, .analyzeStarted])
    | .ok analysis =>
      let safeUploadEpoch := uploadEpoch.getD o.epochNow
      let analysisPrefix :=
        CHILD_VIDEO_ANALYSIS_PREFIX ++ "/" ++ icdKey ++ "/" ++ safeUploadEpoch
      let finalJsonDestination := analysisPrefix ++ "/behaviors_final.json"
      let outputVideoDestination := analysisPrefix ++ "/video_with_behaviors.mp4"
      let validatedJsonDestination := analysisPrefix ++ "/behaviors_validated.json"
      let rawJsonDestination := analysisPrefix ++ "/behaviors_raw.json"
      let w2 := setObj (setObj (setObj (setObj w
        finalJsonDestination .blob) validatedJsonDestination .blob)
        rawJsonDestination .blob) outputVideoDestination .blob
      let ev2 := ev ++ [.downloadSource objectName, .analyzeStarted,
        .uploadArtifact finalJsonDestination, .uploadArtifact validatedJsonDestination,
        .uploadArtifact rawJsonDestination, .uploadArtifact outputVideoDestination]
      match o.uploadError with
      | some msg => failJob w2 sessionRecordPath msg o.finishedAt ev2
      | none =>
        match readJsonFile w2 sessionRecordPath with
        | .error msg => failJob w2 sessionRecordPath msg o.finishedAt
            (ev2 ++ [.readRecord sessionRecordPath])
        | .ok existingSession =>
          let newRec : SessionRecord := { existingSession with
            childIcdCode := (match existingSession.childIcdCode with
              | some s => if s != "" then some s else some icdKey
              | none => some icdKey),
            status := some "Pending review",
            pendingReviewAt := some o.finishedAt,
            dominantCategory := (match analysis.dominantCategory with
              | some s => if s != "" then some s else none
              | none => none),
            behaviorSummary := some (behaviorSummary analysis.behaviors),
            analysisJsonPath := some finalJsonDestination,
            processedVideoPath := some outputVideoDestination,
            processingError := none,
            workerModel := some o.geminiModel,
            workerDurationSec := some (round3 analysis.durationSec),
            workerMergedBehaviorCount := some analysis.behaviors.length,
            linkedSourceVideoPath := some objectName }
          let w3 := setObj w2 sessionRecordPath (.session newRec)
          (.ok (.ok sessionRecordPath finalJsonDestination outputVideoDestination),
            w3,
            ev2 ++ [.readRecord sessionRecordPath, .writeRecord sessionRecordPath,
              .removeTmpDir])

/-- The non-empty-string test `typeof x === "string" && x` on a JSON field. -/
def strFieldSet : Option String → Bool
  | some s => s != ""
  | none => false

/-- The gate of step 4: status ∈ {Pending review, Reviewed} and both artifact
paths populated. -/
def alreadyProcessedGate (session : SessionRecord) : Bool :=
  (session.status == some "Pending review" || session.status == some "Reviewed") &&
  strFieldSet session.analysisJsonPath && strFieldSet session.processedVideoPath

/-- `processVideoObject` (process-video-job.mjs 112–243). -/
def processVideoObject (w : World) (o : JobOracle) (objectName : String) :
    Except String JobResult × World × List JobEvent :=
  if objectName == "" || !strStartsWith objectName CHILD_VIDEOS_PREFIX ||
      strEndsWith objectName "/" then
    (.ok (.ignored "unsupported_object" none), w, [])
  else if (strSplit objectName '/').length < 4 then
    (.ok (.ignored "invalid_object_path" none), w, [])
  else
    let icdKey := ((strSplit objectName '/').getD 2 "")
    let uploadEpoch := parseUploadEpochFromObjectPath objectName
    if (getObj w objectName).isNone then
      (.ok (.ignored "source_missing" none), w, [.checkExists objectName])
    else
      let resolved := resolveSessionRecordPath w icdKey objectName uploadEpoch
      let ev0 := .checkExists objectName :: resolved.2
      match resolved.1 with
      | none => (.error ("Session record not found for video " ++ objectName), w, ev0)
      | some sessionRecordPath =>
        match readJsonFile w sessionRecordPath with
        | .error msg => (.error msg, w, ev0 ++ [.readRecord sessionRecordPath])
        | .ok session =>
          let ev1 := ev0 ++ [.readRecord sessionRecordPath]
          if alreadyProcessedGate session then
            (.ok (.ignored "already_processed" (some sessionRecordPath)), w, ev1)
          else
            -- step 5: the Processing transition (before the try/catch)
            match o.processingWriteError with
            | some msg => (.error msg, w, ev1 ++ [.writeRecord sessionRecordPath])
            | none =>
              let w1 := setObj w sessionRecordPath (.session { session with
                status := some "Processing",
                processingStartedAt := some o.startedAt,
                processingError := none })
              runJob w1 o objectName icdKey uploadEpoch sessionRecordPath
                (ev1 ++ [.writeRecord sessionRecordPath, .makeTmpDir])

/-! ## Claim C3: the policy-wrapped call -/

theorem isRetryable_of_not_rateLimit {e : ErrorInfo} (h : isRateLimitError e = false) :
    isRetryableError e = specIsRetryable e := by
  simp only [isRetryableError, specIsRetryable, h, Bool.false_or]

theorem callWithPolicyGo_eq_policySpec {α : Type} (label : String) :
    ∀ (script : List (Except ErrorInfo α)) (rl tr : Nat),
    callWithPolicyGo label rl tr script = policySpec label rl tr script := by
  intro script
  induction script with
  | nil => intro rl tr; rfl
  | cons o rest ih =>
    intro rl tr
    cases o with
    | ok v => rfl
    | error e =>
      simp only [callWithPolicyGo, policySpec]
      by_cases hrl : isRateLimitError e = true
      · rw [if_pos hrl, if_pos hrl]
        by_cases h0 : (rl == 0) = true
        · rw [if_pos h0, if_pos h0, ih]
        · rw [if_neg h0, if_neg h0]
      · have hrl' : isRateLimitError e = false := by simpa using hrl
        rw [if_neg hrl, if_neg hrl]
        have hretry := isRetryable_of_not_rateLimit hrl'
        cases hspec : specIsRetryable e with
        | false =>
          have hce : isRetryableError e = false := by rw [hretry, hspec]
          simp [hce, hspec]
        | true =>
          have hce : isRetryableError e = true := by rw [hretry, hspec]
          rcases Nat.lt_or_ge tr MAX_TRANSIENT_RETRIES with htr | htr
          · simp [hce, hspec, htr, (by omega : ¬ MAX_TRANSIENT_RETRIES ≤ tr), ih]
          · simp [hce, hspec, htr]
            rw [if_neg (by omega : ¬ tr < MAX_TRANSIENT_RETRIES)]

theorem attemptsHaveBarrier_pause (t : List PolicyEvent) :
    attemptsHaveBarrier (.barrier :: .attempt :: .pauseTrigger :: t) =
      attemptsHaveBarrier t := rfl

theorem attemptsHaveBarrier_sleep (t : List PolicyEvent) :
    attemptsHaveBarrier (.barrier :: .attempt :: .retrySleep :: t) =
      attemptsHaveBarrier t := rfl

theorem attemptsHaveBarrier_go {α : Type} (label : String) :
    ∀ (script : List (Except ErrorInfo α)) (rl tr : Nat),
    attemptsHaveBarrier (callWithPolicyGo label rl tr script).2 = true := by
  intro script
  induction script with
  | nil => intro rl tr; rfl
  | cons o rest ih =>
    intro rl tr
    cases o with
    | ok v => rfl
    | error e =>
      simp only [callWithPolicyGo]
      by_cases hrl : isRateLimitError e = true
      · rw [if_pos hrl]
        by_cases h0 : (rl == 0) = true
        · rw [if_pos h0]
          exact (attemptsHaveBarrier_pause _).trans (ih 1 tr)
        · rw [if_neg h0]; rfl
      · rw [if_neg hrl]
        by_cases hsk : (!isRetryableError e || decide (MAX_TRANSIENT_RETRIES ≤ tr))
            = true
        · rw [if_pos hsk]; rfl
        · rw [if_neg hsk]
          exact (attemptsHaveBarrier_sleep _).trans (ih rl (tr + 1))

/-- **C3.** Every invocation of `callWithPolicy` behaves exactly as the spec's
retry policy describes: a rate-limit-classified error triggers the global
pause and a retry on its first occurrence and raises SkipUnit on its second;
a retryable error is retried after the fixed interval at most 3 times, after
which SkipUnit carries the last error message; any other error raises
SkipUnit immediately; a successful thunk result is returned; and the
rate-controller barrier is awaited before every attempt (first conjunct:
refinement of `policySpec`, which is written from the spec's words; second
conjunct: the barrier discipline on the trace). -/
theorem callWithPolicy_policy {α : Type} (label : String)
    (script : List (Except ErrorInfo α)) :
    callWithPolicy label script = policySpec label 0 0 script ∧
    attemptsHaveBarrier (callWithPolicy label script).2 = true :=
  ⟨callWithPolicyGo_eq_policySpec label script 0 0,
   attemptsHaveBarrier_go label script 0 0⟩

/-! ## Storage and path lemmas for the job-processor claims -/

theorem getObj_setObj_self (w : World) (p : String) (o : StoredObj) :
    getObj (setObj w p o) p = some o := by
  simp [getObj, setObj, List.lookup]

theorem lookup_filter_ne {l : List (String × StoredObj)} {p k : String} (h : p ≠ k) :
    (l.filter (fun kv => !(kv.1 == k))).lookup p = l.lookup p := by
  induction l with
  | nil => rfl
  | cons kv rest ih =>
    by_cases hk : kv.1 = k
    · have h1 : (kv.1 == k) = true := beq_iff_eq.mpr hk
      have h2 : (p == kv.1) = false := by
        rw [beq_eq_false_iff_ne]; rw [hk]; exact h
      simp [List.filter, List.lookup, h1, h2, ih]
    · have h1 : (kv.1 == k) = false := by rw [beq_eq_false_iff_ne]; exact hk
      simp only [List.filter, h1, Bool.not_false, List.lookup]
      cases hpk : p == kv.1 with
      | true => rfl
      | false => exact ih

theorem getObj_setObj_ne {w : World} {p k : String} {o : StoredObj} (h : p ≠ k) :
    getObj (setObj w k o) p = getObj w p := by
  have h2 : (p == k) = false := beq_eq_false_iff_ne.mpr h
  simp only [getObj, setObj, List.lookup, h2]
  exact lookup_filter_ne h

/-- Events that mutate storage, start an analysis, or create the temp dir. -/
def jobSideEffect : JobEvent → Bool
  | .writeRecord _ => true
  | .uploadArtifact _ => true
  | .analyzeStarted => true
  | .makeTmpDir => true
  | _ => false

theorem scan_events_benign (objectName : String) :
    ∀ l, ((scanSessionFiles objectName l).2).all (fun e => !jobSideEffect e) = true := by
  intro l
  induction l with
  | nil => rfl
  | cons kv rest ih =>
    obtain ⟨name, obj⟩ := kv
    by_cases he : strEndsWith name "/" = true
    · simpa [scanSessionFiles, he] using ih
    · cases obj with
      | session r =>
        by_cases hm : (r.storagePath == some objectName) = true
        · simp [scanSessionFiles, he, hm, jobSideEffect]
        · simpa [scanSessionFiles, he, hm, jobSideEffect] using ih
      | blob => simpa [scanSessionFiles, he, jobSideEffect] using ih
      | badJson => simpa [scanSessionFiles, he, jobSideEffect] using ih

theorem resolve_events_benign (w : World) (icdKey objectName : String)
    (uploadEpoch : Option String) :
    ((resolveSessionRecordPath w icdKey objectName uploadEpoch).2).all
      (fun e => !jobSideEffect e) = true := by
  unfold resolveSessionRecordPath
  cases uploadEpoch with
  | none => simpa [List.all_cons, jobSideEffect] using scan_events_benign objectName _
  | some epoch =>
    by_cases hc : (getObj w (CHILD_VIDEO_SESSIONS_PREFIX ++ "/" ++ icdKey ++ "/" ++
        epoch ++ ".json")).isSome = true
    · simp only [hc, if_true]; rfl
    · simp only [hc, if_false, Bool.false_eq_true]
      simpa [List.all_cons, jobSideEffect] using scan_events_benign objectName _

theorem listStartsWith_nil (l : List Char) : listStartsWith l [] = true := by
  cases l <;> rfl

theorem listStartsWith_append : ∀ (a b : List Char), listStartsWith (a ++ b) a = true := by
  intro a
  induction a with
  | nil => intro b; exact listStartsWith_nil b
  | cons c t ih => intro b; simp [listStartsWith, ih]

theorem strStartsWith_append (s t : String) : strStartsWith (s ++ t) s = true :=
  listStartsWith_append s.data t.data

theorem listStartsWith_of_startsWith :
    ∀ (a p b : List Char), listStartsWith a p = true →
      listStartsWith (a ++ b) p = true := by
  intro a
  induction a with
  | nil =>
    intro p b h
    cases p with
    | nil => exact listStartsWith_nil b
    | cons _ _ => exact absurd h (by simp [listStartsWith])
  | cons c t ih =>
    intro p b h
    cases p with
    | nil => exact listStartsWith_nil _
    | cons cp tp =>
      simp only [listStartsWith, Bool.and_eq_true] at h ⊢
      exact ⟨h.1, ih tp b h.2⟩

theorem strStartsWith_of_append (s t : String) (p : String)
    (h : strStartsWith s p = true) : strStartsWith (s ++ t) p = true :=
  listStartsWith_of_startsWith s.data p.data t.data h

theorem listStartsWith_total :
    ∀ (x a b : List Char), listStartsWith x a = true → listStartsWith x b = true →
      listStartsWith a b = true ∨ listStartsWith b a = true := by
  intro x
  induction x with
  | nil =>
    intro a b ha hb
    cases a with
    | nil => cases b with
      | nil => exact Or.inl rfl
      | cons _ _ => exact absurd hb (by simp [listStartsWith])
    | cons _ _ => exact absurd ha (by simp [listStartsWith])
  | cons c t ih =>
    intro a b ha hb
    cases a with
    | nil => exact Or.inr (listStartsWith_nil b)
    | cons ca ta =>
      cases b with
      | nil => exact Or.inl (listStartsWith_nil _)
      | cons cb tb =>
        simp only [listStartsWith, Bool.and_eq_true, beq_iff_eq] at ha hb
        obtain ⟨hca, ha'⟩ := ha
        obtain ⟨hcb, hb'⟩ := hb
        rcases ih ta tb ha' hb' with h | h
        · refine Or.inl ?_
          simp only [listStartsWith, Bool.and_eq_true, beq_iff_eq]
          exact ⟨hca.symm.trans hcb, h⟩
        · refine Or.inr ?_
          simp only [listStartsWith, Bool.and_eq_true, beq_iff_eq]
          exact ⟨hcb.symm.trans hca, h⟩

/-- A path under the sessions prefix is never a path under the analysis
prefix (so artifact uploads cannot clobber the session record). -/
theorem sessions_analysis_disjoint {p q : String}
    (hp : strStartsWith p "carecam/child_video_sessions/" = true)
    (hq : strStartsWith q "carecam/child_video_analysis/" = true) : p ≠ q := by
  intro heq
  subst heq
  rcases listStartsWith_total p.data "carecam/child_video_sessions/".data
      "carecam/child_video_analysis/".data hp hq with h | h
  · exact absurd h (by decide)
  · exact absurd h (by decide)

theorem objectName_ne_empty {objectName : String}
    (hpfx : strStartsWith objectName CHILD_VIDEOS_PREFIX = true) :
    (objectName == "") = false := by
  cases heq : objectName == "" with
  | true =>
    exfalso
    rw [eq_of_beq heq] at hpfx
    exact absurd hpfx (by decide)
  | false => rfl

/-! ## Claim C10: missing source object -/

/-- **C10.** If the object name is under the child-videos prefix with a valid
path shape but the source object does not exist, `processVideoObject` returns
`{ignored: true, reason: "source_missing"}` before resolving the session
record: the storage is unchanged and the trace holds only the source
existence check — no session record is read, created, or written, and no
analysis is started. -/
theorem processVideoObject_source_missing
    (w : World) (o : JobOracle) (objectName : String)
    (hpfx : strStartsWith objectName CHILD_VIDEOS_PREFIX = true)
    (hslash : strEndsWith objectName "/" = false)
    (hparts : 4 ≤ (strSplit objectName '/').length)
    (hmissing : getObj w objectName = none) :
    processVideoObject w o objectName =
      (.ok (.ignored "source_missing" none), w, [.checkExists objectName]) := by
  have hne := objectName_ne_empty hpfx
  unfold processVideoObject
  rw [hne, hpfx, hslash]
  simp only [Bool.not_true, Bool.or_false, Bool.false_or, Bool.false_eq_true,
    if_false]
  rw [if_neg (by omega : ¬ (strSplit objectName '/').length < 4)]
  rw [hmissing]
  simp

def c10World : World := ⟨[]⟩

def c10Oracle : JobOracle :=
  { startedAt := "t1", finishedAt := "t2", epochNow := "0", geminiModel := "m",
    analysisResult := .error "unused" }

theorem processVideoObject_source_missing_witness :
    strStartsWith "carecam/child_videos/icd1/123-v.mp4" CHILD_VIDEOS_PREFIX = true ∧
    getObj c10World "carecam/child_videos/icd1/123-v.mp4" = none ∧
    processVideoObject c10World c10Oracle "carecam/child_videos/icd1/123-v.mp4" =
      (.ok (.ignored "source_missing" none), c10World,
        [.checkExists "carecam/child_videos/icd1/123-v.mp4"]) :=
  ⟨by decide, rfl,
   processVideoObject_source_missing c10World c10Oracle _
     (by decide) (by decide) (by decide) rfl⟩

/-! ## Claim C4: idempotency gate -/

/-- **C4.** If the resolved session record has status `Pending review` or
`Reviewed` and both `analysisJsonPath` and `processedVideoPath` are populated
non-empty strings, `processVideoObject` returns
`{ignored: true, reason: "already_processed"}` without performing any
analysis and without writing to the session record or any other storage
object: the returned world is the input world and the trace holds no write,
upload, analysis, or temp-dir event. -/
theorem processVideoObject_already_processed
    (w : World) (o : JobOracle) (objectName sessionRecordPath : String)
    (session : SessionRecord)
    (hpfx : strStartsWith objectName CHILD_VIDEOS_PREFIX = true)
    (hslash : strEndsWith objectName "/" = false)
    (hparts : 4 ≤ (strSplit objectName '/').length)
    (hsrc : (getObj w objectName).isNone = false)
    (hres : (resolveSessionRecordPath w ((strSplit objectName '/').getD 2 "")
        objectName (parseUploadEpochFromObjectPath objectName)).1 =
        some sessionRecordPath)
    (hread : readJsonFile w sessionRecordPath = .ok session)
    (hgate : alreadyProcessedGate session = true) :
    (processVideoObject w o objectName).1 =
      .ok (.ignored "already_processed" (some sessionRecordPath)) ∧
    (processVideoObject w o objectName).2.1 = w ∧
    ((processVideoObject w o objectName).2.2).all (fun e => !jobSideEffect e)
      = true := by
  have hne := objectName_ne_empty hpfx
  have hmain : processVideoObject w o objectName =
      (.ok (.ignored "already_processed" (some sessionRecordPath)), w,
        (.checkExists objectName ::
          (resolveSessionRecordPath w ((strSplit objectName '/').getD 2 "")
            objectName (parseUploadEpochFromObjectPath objectName)).2) ++
          [.readRecord sessionRecordPath]) := by
    unfold processVideoObject
    rw [hne, hpfx, hslash]
    simp only [Bool.not_true, Bool.or_false, Bool.false_or, Bool.false_eq_true,
      if_false]
    rw [if_neg (by omega : ¬ (strSplit objectName '/').length < 4)]
    rw [if_neg (by rw [hsrc]; exact Bool.false_ne_true)]
    simp only [hres, hread, hgate, if_true]
  refine ⟨by rw [hmain], by rw [hmain], ?_⟩
  rw [hmain]
  have hb := resolve_events_benign w ((strSplit objectName '/').getD 2 "")
    objectName (parseUploadEpochFromObjectPath objectName)
  simp [List.all_append, List.all_cons, List.all_eq_true, jobSideEffect] at hb ⊢
  exact hb

def c4SessionRec : SessionRecord :=
  { storagePath := some "carecam/child_videos/icd1/100-v.mp4",
    status := some "Pending review",
    analysisJsonPath := some "carecam/child_video_analysis/icd1/100/behaviors_final.json",
    processedVideoPath := some "carecam/child_video_analysis/icd1/100/video_with_behaviors.mp4" }

def c4World : World :=
  ⟨[("carecam/child_videos/icd1/100-v.mp4", .blob),
    ("carecam/child_video_sessions/icd1/100.json", .session c4SessionRec)]⟩

theorem processVideoObject_already_processed_witness :
    alreadyProcessedGate c4SessionRec = true ∧
    (processVideoObject c4World c10Oracle "carecam/child_videos/icd1/100-v.mp4").1 =
      .ok (.ignored "already_processed"
        (some "carecam/child_video_sessions/icd1/100.json")) ∧
    (processVideoObject c4World c10Oracle "carecam/child_videos/icd1/100-v.mp4").2.1 =
      c4World := by
  have h := processVideoObject_already_processed c4World c10Oracle
    "carecam/child_videos/icd1/100-v.mp4"
    "carecam/child_video_sessions/icd1/100.json" c4SessionRec
    (by decide) (by decide) (by decide) (by decide) (by decide) rfl
    (by decide)
  exact ⟨by decide, h.1, h.2.1⟩

/-! ## Claim C5: failure handling in the job -/

theorem strStartsWith_refl (s : String) : strStartsWith s s = true := by
  have h := listStartsWith_append s.data []
  rwa [List.append_nil] at h

/-- The record written by step 5 (the `Processing` transition). -/
def processingRecord (session : SessionRecord) (o : JobOracle) : SessionRecord :=
  { session with
    status := some "Processing",
    processingStartedAt := some o.startedAt,
    processingError := none }

/-- The record the catch block writes: the re-read record (here, the
`Processing` record) with only `status`, `failedAt` and `processingError`
changed. -/
def failedRecord (session : SessionRecord) (o : JobOracle) (msg : String) :
    SessionRecord :=
  { processingRecord session o with
    status := some "Failed",
    failedAt := some o.finishedAt,
    processingError := some msg }

theorem analysis_path_starts (icdKey ep suffix : String) :
    strStartsWith ((CHILD_VIDEO_ANALYSIS_PREFIX ++ "/" ++ icdKey ++ "/" ++ ep)
      ++ suffix) "carecam/child_video_analysis/" = true := by
  have h1 : strStartsWith (CHILD_VIDEO_ANALYSIS_PREFIX ++ "/" ++ icdKey)
      (CHILD_VIDEO_ANALYSIS_PREFIX ++ "/") = true :=
    strStartsWith_append _ _
  have h2 := strStartsWith_of_append (CHILD_VIDEO_ANALYSIS_PREFIX ++ "/" ++ icdKey)
    "/" _ h1
  have h3 := strStartsWith_of_append (CHILD_VIDEO_ANALYSIS_PREFIX ++ "/" ++ icdKey
    ++ "/") ep _ h2
  have h4 := strStartsWith_of_append (CHILD_VIDEO_ANALYSIS_PREFIX ++ "/" ++ icdKey
    ++ "/" ++ ep) suffix _ h3
  have he : CHILD_VIDEO_ANALYSIS_PREFIX ++ "/" = "carecam/child_video_analysis/" := by
    decide
  rwa [he] at h4

/-- **C5 (amended).** If an exception is raised inside the job's `try` block —
during download, analysis, or artifact upload — `processVideoObject` re-reads
the session record, writes it back with `status = "Failed"`, a `failedAt`
timestamp and `processingError` set to the exception's message (all other
fields taken from the re-read record, i.e. the `Processing` record), re-raises
the exception, and the temporary directory is deleted.  An exception in the
step-5 `Processing` transition itself, which the code performs *before* the
`try`, instead propagates without any `Failed` write (see the
counterexample). -/
theorem processVideoObject_failure_handling
    (w : World) (o : JobOracle) (objectName sessionRecordPath : String)
    (session : SessionRecord)
    (hpfx : strStartsWith objectName CHILD_VIDEOS_PREFIX = true)
    (hslash : strEndsWith objectName "/" = false)
    (hparts : 4 ≤ (strSplit objectName '/').length)
    (hsrc : (getObj w objectName).isNone = false)
    (hres : (resolveSessionRecordPath w ((strSplit objectName '/').getD 2 "")
        objectName (parseUploadEpochFromObjectPath objectName)).1 =
        some sessionRecordPath)
    (hread : readJsonFile w sessionRecordPath = .ok session)
    (hgate : alreadyProcessedGate session = false)
    (hpw : o.processingWriteError = none)
    (hsess : strStartsWith sessionRecordPath "carecam/child_video_sessions/" = true) :
    ∀ msg : String,
    (o.downloadError = some msg →
      (processVideoObject w o objectName).1 = .error msg ∧
      getObj (processVideoObject w o objectName).2.1 sessionRecordPath =
        some (.session (failedRecord session o msg)) ∧
      .removeTmpDir ∈ (processVideoObject w o objectName).2.2) ∧
    (o.downloadError = none → o.analysisResult = .error msg →
      (processVideoObject w o objectName).1 = .error msg ∧
      getObj (processVideoObject w o objectName).2.1 sessionRecordPath =
        some (.session (failedRecord session o msg)) ∧
      .removeTmpDir ∈ (processVideoObject w o objectName).2.2) ∧
    (∀ a, o.downloadError = none → o.analysisResult = .ok a →
      o.uploadError = some msg →
      (processVideoObject w o objectName).1 = .error msg ∧
      getObj (processVideoObject w o objectName).2.1 sessionRecordPath =
        some (.session (failedRecord session o msg)) ∧
      .removeTmpDir ∈ (processVideoObject w o objectName).2.2) := by
  have hne := objectName_ne_empty hpfx
  have hstep : processVideoObject w o objectName =
      runJob (setObj w sessionRecordPath (.session (processingRecord session o)))
        o objectName ((strSplit objectName '/').getD 2 "")
        (parseUploadEpochFromObjectPath objectName) sessionRecordPath
        ((JobEvent.checkExists objectName ::
            (resolveSessionRecordPath w ((strSplit objectName '/').getD 2 "")
              objectName (parseUploadEpochFromObjectPath objectName)).2 ++
            [JobEvent.readRecord sessionRecordPath]) ++
          [JobEvent.writeRecord sessionRecordPath, JobEvent.makeTmpDir]) := by
    unfold processVideoObject
    rw [hne, hpfx, hslash]
    simp only [Bool.not_true, Bool.or_false, Bool.false_or, Bool.false_eq_true,
      if_false]
    rw [if_neg (by omega : ¬ (strSplit objectName '/').length < 4)]
    rw [if_neg (by rw [hsrc]; exact Bool.false_ne_true)]
    simp only [hres, hread]
    rw [if_neg (by rw [hgate]; exact Bool.false_ne_true)]
    rw [hpw]
    rfl
  set w1 := setObj w sessionRecordPath (.session (processingRecord session o))
    with hw1
  have hw1read : readJsonFile w1 sessionRecordPath =
      .ok (processingRecord session o) := by
    rw [hw1]; simp [readJsonFile, getObj_setObj_self]
  intro msg
  refine ⟨?_, ?_, ?_⟩
  · intro hdl
    rw [hstep]
    simp [runJob, hdl, failJob, hw1read, getObj_setObj_self, failedRecord,
      List.mem_append]
  · intro hdl hana
    rw [hstep]
    simp [runJob, hdl, hana, failJob, hw1read, getObj_setObj_self, failedRecord,
      List.mem_append]
  · intro a hdl hana hup
    rw [hstep]
    simp only [runJob, hdl, hana, hup]
    set icdK := (strSplit objectName '/').getD 2 "" with hicdK
    set epochK := (parseUploadEpochFromObjectPath objectName).getD o.epochNow
      with hepochK
    have hd1 := sessions_analysis_disjoint hsess
      (analysis_path_starts icdK epochK "/behaviors_final.json")
    have hd2 := sessions_analysis_disjoint hsess
      (analysis_path_starts icdK epochK "/behaviors_validated.json")
    have hd3 := sessions_analysis_disjoint hsess
      (analysis_path_starts icdK epochK "/behaviors_raw.json")
    have hd4 := sessions_analysis_disjoint hsess
      (analysis_path_starts icdK epochK "/video_with_behaviors.mp4")
    have hw2read : readJsonFile (setObj (setObj (setObj (setObj w1
        (CHILD_VIDEO_ANALYSIS_PREFIX ++ "/" ++ icdK ++ "/" ++ epochK
          ++ "/behaviors_final.json") .blob)
        (CHILD_VIDEO_ANALYSIS_PREFIX ++ "/" ++ icdK ++ "/" ++ epochK
          ++ "/behaviors_validated.json") .blob)
        (CHILD_VIDEO_ANALYSIS_PREFIX ++ "/" ++ icdK ++ "/" ++ epochK
          ++ "/behaviors_raw.json") .blob)
        (CHILD_VIDEO_ANALYSIS_PREFIX ++ "/" ++ icdK ++ "/" ++ epochK
          ++ "/video_with_behaviors.mp4") .blob) sessionRecordPath =
        .ok (processingRecord session o) := by
      unfold readJsonFile
      rw [getObj_setObj_ne hd4, getObj_setObj_ne hd3, getObj_setObj_ne hd2,
        getObj_setObj_ne hd1, hw1]
      simp [getObj_setObj_self]
    simp only [failJob]
    simp only [hw2read]
    simp [getObj_setObj_self, failedRecord, List.mem_append]

/-- A session record in `Awaiting`, for the C5 scenarios. -/
def c5Awaiting : SessionRecord :=
  { storagePath := some "carecam/child_videos/icd1/100-v.mp4",
    status := some "Awaiting" }

def c5World : World :=
  ⟨[("carecam/child_videos/icd1/100-v.mp4", .blob),
    ("carecam/child_video_sessions/icd1/100.json", .session c5Awaiting)]⟩

def c5OraclePW : JobOracle :=
  { startedAt := "t1", finishedAt := "t2", epochNow := "0", geminiModel := "m",
    processingWriteError := some "pwfail", analysisResult := .error "unused" }

/-- **C5 counterexample.** An exception raised by the step-5 `Processing`
write itself (which the claim includes in "steps 5–7") propagates with *no*
`Failed` write — the storage is unchanged, the record still says `Awaiting` —
and no temporary directory is ever created or deleted, contradicting the
claim's "writes it back with status = Failed … the job's temporary directory
is deleted in every case". -/
theorem processVideoObject_processing_write_failure :
    (processVideoObject c5World c5OraclePW "carecam/child_videos/icd1/100-v.mp4").1
      = .error "pwfail" ∧
    (processVideoObject c5World c5OraclePW "carecam/child_videos/icd1/100-v.mp4").2.1
      = c5World ∧
    getObj (processVideoObject c5World c5OraclePW
        "carecam/child_videos/icd1/100-v.mp4").2.1
        "carecam/child_video_sessions/icd1/100.json"
      = some (.session c5Awaiting) ∧
    c5Awaiting.status = some "Awaiting" ∧
    (.removeTmpDir ∈ (processVideoObject c5World c5OraclePW
        "carecam/child_videos/icd1/100-v.mp4").2.2 → False) := by
  refine ⟨rfl, rfl, rfl, rfl, by decide⟩

def c5OracleDL : JobOracle :=
  { startedAt := "t1", finishedAt := "t2", epochNow := "0", geminiModel := "m",
    downloadError := some "boom", analysisResult := .error "unused" }

theorem processVideoObject_failure_handling_witness :
    alreadyProcessedGate c5Awaiting = false ∧
    (processVideoObject c5World c5OracleDL "carecam/child_videos/icd1/100-v.mp4").1
      = .error "boom" ∧
    getObj (processVideoObject c5World c5OracleDL
        "carecam/child_videos/icd1/100-v.mp4").2.1
        "carecam/child_video_sessions/icd1/100.json"
      = some (.session (failedRecord c5Awaiting c5OracleDL "boom")) ∧
    .removeTmpDir ∈ (processVideoObject c5World c5OracleDL
        "carecam/child_videos/icd1/100-v.mp4").2.2 := by
  have h := processVideoObject_failure_handling c5World c5OracleDL
    "carecam/child_videos/icd1/100-v.mp4"
    "carecam/child_video_sessions/icd1/100.json" c5Awaiting
    (by decide) (by decide) (by decide) (by decide) (by decide) rfl
    (by decide) rfl (by decide) "boom"
  exact ⟨by decide, (h.1 rfl).1, (h.1 rfl).2.1, (h.1 rfl).2.2⟩

/-! ## Claim C2: validation skip handling -/

/-- **C2 counterexample.** A validation unit whose model payload is still
not a JSON object after the strict-JSON retry is emitted with
`skipped: true` but `correct: false` — not `correct: true` as the claim
states — so it *is* discarded by the `correct` filter. -/
theorem validateUnit_invalid_payload_not_correct :
    (validateUnit 30 ⟨"crying", "audio", 10, 12, ""⟩ .notObject).skipped = true ∧
    (validateUnit 30 ⟨"crying", "audio", 10, 12, ""⟩ .notObject).correct = false ∧
    (validateUnit 30 ⟨"crying", "audio", 10, 12, ""⟩ .notObject).span =
      ⟨"crying", "audio", 10, 12, ""⟩ :=
  ⟨rfl, rfl, rfl⟩

/-- **C2 (amended).** A validation unit skipped because the policy raised
SkipUnit (or because any other error reached the unit's catch) is emitted
with `skipped: true` and `correct: true` and the pre-validation bounds
unchanged, so the detection is retained; a unit whose payload is still not a
JSON object after the strict-JSON retry is instead emitted with
`skipped: true` but `correct: false`, and `behaviors_validated.json` keeps
only entries with `correct = true`. -/
theorem validation_skip_handling (durationSec : ℚ) (item : Span) :
    validateUnit durationSec item .skipUnit =
      ⟨item, true, true, some "validation_skipped_assumed_true"⟩ ∧
    validateUnit durationSec item .failed =
      ⟨item, true, true, some "validation_failed_assumed_true"⟩ ∧
    validateUnit durationSec item .notObject =
      ⟨item, false, true, some "invalid_validation_payload"⟩ ∧
    (∀ run : AnalyzerRun, (validatedOnly run).all (·.correct) = true) :=
  ⟨rfl, rfl, rfl, fun run => by
    simp only [validatedOnly, List.all_eq_true, List.mem_filter]
    exact fun v hv => hv.2⟩

/-! ## Claim C8: the segmentation planner -/

theorem round3_int_val (z : ℤ) : round3 ((z : ℚ)) = (z : ℚ) :=
  dec3_round3_eq ⟨z * 1000, by push_cast; ring⟩

theorem round3_26k (k : ℕ) : round3 (26 * (k : ℚ)) = 26 * (k : ℚ) := by
  have h : (26 * (k : ℚ)) = ((26 * (k : ℤ) : ℤ) : ℚ) := by push_cast; ring
  rw [h, round3_int_val]

theorem round3_26k30 (k : ℕ) : round3 (26 * (k : ℚ) + 30) = 26 * (k : ℚ) + 30 := by
  have h : (26 * (k : ℚ) + 30) = ((26 * (k : ℤ) + 30 : ℤ) : ℚ) := by push_cast; ring
  rw [h, round3_int_val]

/-- One unfolding of the segmentation loop. -/
theorem buildSegmentsAux_step (D start : ℚ) (h : start < D) :
    buildSegmentsAux D start =
      if D ≤ start + 30 then [⟨round3 start, round3 D⟩]
      else ⟨round3 start, round3 (start + 30)⟩ ::
        buildSegmentsAux D (max 0 (start + 26)) := by
  rw [buildSegmentsAux]
  simp only [CHUNK_SECONDS, CHUNK_OVERLAP_SECONDS, dif_pos h]
  by_cases hle : D ≤ start + 30
  · rw [min_eq_right hle, if_pos le_rfl, if_pos hle]
  · have hlt : start + 30 < D := lt_of_not_le hle
    rw [min_eq_left hlt.le, if_neg hle, if_neg hle,
      show start + 30 - 4 = start + 26 by ring]

/-- The pairwise relation between consecutive windows: each starts at the
previous window's (stored) end minus 4, i.e. 26 s after the previous start. -/
def segStepRel (a b : Segment) : Prop :=
  b.startSec = a.endSec - 4 ∧ b.startSec = a.startSec + 26

theorem buildSegmentsAux_base (D : ℚ) (k : ℕ) (hk : 26 * (k : ℚ) < D)
    (hd : D ≤ 26 * (k : ℚ) + 30) :
    buildSegmentsAux D (26 * (k : ℚ)) = [⟨26 * (k : ℚ), round3 D⟩] := by
  rw [buildSegmentsAux_step D _ hk, if_pos hd, round3_26k]

theorem buildSegmentsAux_master (D : ℚ) :
    ∀ (n k : ℕ), 26 * (k : ℚ) < D → D ≤ 26 * (k : ℚ) + 30 + 26 * (n : ℚ) →
    (buildSegmentsAux D (26 * (k : ℚ))).head? =
        some ⟨26 * (k : ℚ), round3 (min (26 * (k : ℚ) + 30) D)⟩ ∧
    (∀ seg ∈ buildSegmentsAux D (26 * (k : ℚ)), ∃ j : ℕ, k ≤ j ∧
        26 * (j : ℚ) < D ∧
        seg = ⟨26 * (j : ℚ), round3 (min (26 * (j : ℚ) + 30) D)⟩) ∧
    (∃ K : ℕ, (buildSegmentsAux D (26 * (k : ℚ))).getLast? =
        some ⟨26 * (K : ℚ), round3 D⟩ ∧ D ≤ 26 * (K : ℚ) + 30) ∧
    List.Chain' segStepRel (buildSegmentsAux D (26 * (k : ℚ))) ∧
    (∀ t : ℚ, 26 * (k : ℚ) ≤ t → t < round3 D →
        ∃ seg ∈ buildSegmentsAux D (26 * (k : ℚ)),
          seg.startSec ≤ t ∧ t < seg.endSec) := by
  intro n
  induction n with
  | zero =>
    intro k hk hn
    have hd : D ≤ 26 * (k : ℚ) + 30 := by push_cast at hn; linarith
    have hbase := buildSegmentsAux_base D k hk hd
    have hmin : min (26 * (k : ℚ) + 30) D = D := min_eq_right hd
    refine ⟨by rw [hbase, hmin]; rfl, ?_, ⟨k, by rw [hbase]; simp, hd⟩,
      by rw [hbase]; simp, ?_⟩
    · intro seg hseg
      rw [hbase] at hseg
      rcases List.mem_singleton.mp hseg with rfl
      exact ⟨k, le_rfl, hk, by rw [hmin]⟩
    · intro t ht htD
      refine ⟨⟨26 * (k : ℚ), round3 D⟩, by rw [hbase]; simp, ht, htD⟩
  | succ n ih =>
    intro k hk hn
    by_cases hd : D ≤ 26 * (k : ℚ) + 30
    · have hbase := buildSegmentsAux_base D k hk hd
      have hmin : min (26 * (k : ℚ) + 30) D = D := min_eq_right hd
      refine ⟨by rw [hbase, hmin]; rfl, ?_, ⟨k, by rw [hbase]; simp, hd⟩,
        by rw [hbase]; simp, ?_⟩
      · intro seg hseg
        rw [hbase] at hseg
        rcases List.mem_singleton.mp hseg with rfl
        exact ⟨k, le_rfl, hk, by rw [hmin]⟩
      · intro t ht htD
        refine ⟨⟨26 * (k : ℚ), round3 D⟩, by rw [hbase]; simp, ht, htD⟩
    · have hlt : 26 * (k : ℚ) + 30 < D := lt_of_not_le hd
      have hmax : max 0 (26 * (k : ℚ) + 26) = 26 * ((k + 1 : ℕ) : ℚ) := by
        rw [max_eq_right (by positivity)]
        push_cast; ring
      have hstep : buildSegmentsAux D (26 * (k : ℚ)) =
          ⟨26 * (k : ℚ), 26 * (k : ℚ) + 30⟩ ::
            buildSegmentsAux D (26 * ((k + 1 : ℕ) : ℚ)) := by
        rw [buildSegmentsAux_step D _ hk, if_neg hd, round3_26k, round3_26k30, hmax]
      have hk1 : 26 * ((k + 1 : ℕ) : ℚ) < D := by push_cast; linarith
      have hn1 : D ≤ 26 * ((k + 1 : ℕ) : ℚ) + 30 + 26 * (n : ℚ) := by
        push_cast at hn ⊢; linarith
      obtain ⟨ihHead, ihAll, ⟨K, ihLast, ihKd⟩, ihChain, ihCover⟩ := ih (k + 1) hk1 hn1
      have hmink : min (26 * (k : ℚ) + 30) D = 26 * (k : ℚ) + 30 :=
        min_eq_left hlt.le
      have htail_ne : buildSegmentsAux D (26 * ((k + 1 : ℕ) : ℚ)) ≠ [] := by
        intro hnil
        rw [hnil] at ihHead
        exact Option.noConfusion ihHead
      refine ⟨?_, ?_, ?_, ?_, ?_⟩
      · rw [hstep, hmink, round3_26k30]; rfl
      · intro seg hseg
        rw [hstep] at hseg
        rcases List.mem_cons.mp hseg with rfl | hseg'
        · exact ⟨k, le_rfl, hk, by rw [hmink, round3_26k30]⟩
        · obtain ⟨j, hj1, hj2, hj3⟩ := ihAll seg hseg'
          exact ⟨j, by omega, hj2, hj3⟩
      · refine ⟨K, ?_, ihKd⟩
        rw [hstep]
        cases hcase : buildSegmentsAux D (26 * ((k + 1 : ℕ) : ℚ)) with
        | nil => exact absurd hcase htail_ne
        | cons a l =>
          rw [List.getLast?_cons_cons]
          rw [hcase] at ihLast
          exact ihLast
      · rw [hstep]
        rw [List.chain'_cons']
        refine ⟨?_, ihChain⟩
        intro b hb
        rw [ihHead] at hb
        rcases Option.mem_some_iff.mp hb with rfl
        constructor
        · show 26 * ((k + 1 : ℕ) : ℚ) = (26 * (k : ℚ) + 30) - 4
          push_cast; ring
        · show 26 * ((k + 1 : ℕ) : ℚ) = 26 * (k : ℚ) + 26
          push_cast; ring
      · intro t ht htD
        by_cases htk : t < 26 * (k : ℚ) + 30
        · exact ⟨⟨26 * (k : ℚ), 26 * (k : ℚ) + 30⟩, by rw [hstep]; simp, ht, htk⟩
        · have ht1 : 26 * ((k + 1 : ℕ) : ℚ) ≤ t := by
            push_cast
            push_neg at htk
            linarith
          obtain ⟨seg, hmem, hs1, hs2⟩ := ihCover t ht1 htD
          exact ⟨seg, by rw [hstep]; exact List.mem_cons_of_mem _ hmem, hs1, hs2⟩

/-- **C8 (amended).** For every duration `D > 0`, `buildSegments D` is a
non-empty list of windows in which the first window starts at 0, every
window starts at a multiple of 26 s and ends at `min(start + 30, D)`
*rounded to three decimals* (so all non-final ends are exact), each
subsequent window starts at the previous window's stored end minus 4 s
(starts advance by 26 s), the final window ends at `round3 D` — which is
within 0.0005 of `D` and equals `D` exactly only when `D` has at most three
decimals — and the windows cover `[0, round3 D)`. -/
theorem buildSegments_spec (D : ℚ) (hD : 0 < D) :
    buildSegments D ≠ [] ∧
    (buildSegments D).head? = some ⟨0, round3 (min 30 D)⟩ ∧
    (∀ seg ∈ buildSegments D, ∃ j : ℕ,
        seg = ⟨26 * (j : ℚ), round3 (min (26 * (j : ℚ) + 30) D)⟩) ∧
    List.Chain' segStepRel (buildSegments D) ∧
    (∃ K : ℕ, (buildSegments D).getLast? = some ⟨26 * (K : ℚ), round3 D⟩) ∧
    |round3 D - D| ≤ 1 / 2000 ∧
    (∀ t : ℚ, 0 ≤ t → t < round3 D →
        ∃ seg ∈ buildSegments D, seg.startSec ≤ t ∧ t < seg.endSec) := by
  have h0 : (0 : ℚ) = 26 * ((0 : ℕ) : ℚ) := by norm_num
  have hk : 26 * ((0 : ℕ) : ℚ) < D := by norm_num; exact hD
  have hn : D ≤ 26 * ((0 : ℕ) : ℚ) + 30 + 26 * ((⌈D⌉.toNat : ℕ) : ℚ) := by
    push_cast
    have h1 : D ≤ ⌈D⌉ := Int.le_ceil D
    have h2 : (⌈D⌉ : ℚ) ≤ (⌈D⌉.toNat : ℚ) := by
      have := Int.self_le_toNat ⌈D⌉
      exact_mod_cast this
    nlinarith [h2, h1, Int.le_ceil D,
      (by positivity : (0:ℚ) ≤ 25 * (⌈D⌉.toNat : ℚ))]
  obtain ⟨hHead, hAll, ⟨K, hLast, _⟩, hChain, hCover⟩ :=
    buildSegmentsAux_master D (⌈D⌉.toNat) 0 hk hn
  have hEq : buildSegments D = buildSegmentsAux D (26 * ((0 : ℕ) : ℚ)) := by
    rw [show (26 * ((0 : ℕ) : ℚ)) = 0 by norm_num]
    rfl
  have hne : buildSegments D ≠ [] := by
    intro hnil
    rw [hEq] at hnil
    rw [hnil] at hHead
    exact Option.noConfusion hHead
  refine ⟨hne, ?_, ?_, by rw [hEq]; exact hChain,
    ⟨K, by rw [hEq]; exact hLast⟩, abs_round3_sub D, ?_⟩
  · rw [hEq, hHead]
    norm_num
  · intro seg hseg
    rw [hEq] at hseg
    obtain ⟨j, _, _, hj⟩ := hAll seg hseg
    exact ⟨j, hj⟩
  · intro t ht htD
    rw [hEq]
    exact hCover t (by push_cast; simpa using ht) htD

/-- **C8 counterexample.** For `D = 10.0004` the single produced window is
`[0, 10]`: its stored end is `round3 D = 10 ≠ D`, so the final window does
not end *exactly* at `D` and the recorded windows do not cover `[0, D)`. -/
theorem buildSegments_rounded_end :
    buildSegments (25001 / 2500) = [⟨0, 10⟩] ∧ (10 : ℚ) ≠ 25001 / 2500 := by
  constructor
  · rw [buildSegments, buildSegmentsAux]
    norm_num [CHUNK_SECONDS, round3, round_eq]
  · norm_num

theorem buildSegments_spec_witness :
    (0 : ℚ) < 45 ∧ buildSegments 45 ≠ [] ∧
    (∃ K : ℕ, (buildSegments 45).getLast? = some ⟨26 * (K : ℚ), round3 45⟩) :=
  ⟨by norm_num, (buildSegments_spec 45 (by norm_num)).1,
   (buildSegments_spec 45 (by norm_num)).2.2.2.2.1⟩

/-! ## The merge stage: supporting development for C6 and C7

`mergeBehaviors` keeps a `latestByKey` index map; the development below
relates it to `lastKeyIdx` (the last position holding a given key) and then
reduces per-key behavior to a single-key accumulator step `merge1Step`. -/

def keyIs (K : String) (s : Span) : Bool := spanKey s == K

/-- Index of the last span with string key `K`. -/
def lastKeyIdx (K : String) : List Span → Option Nat
  | [] => none
  | s :: rest =>
    match lastKeyIdx K rest with
    | some i => some (i + 1)
    | none => if spanKey s == K then some 0 else none

theorem lastKeyIdx_lt {K : String} :
    ∀ {l : List Span} {i : Nat}, lastKeyIdx K l = some i → i < l.length := by
  intro l
  induction l with
  | nil => intro i h; exact Option.noConfusion h
  | cons s rest ih =>
    intro i h
    simp only [lastKeyIdx] at h
    cases hr : lastKeyIdx K rest with
    | some j =>
      rw [hr] at h
      have := ih hr
      simp only [Option.some.injEq] at h
      simp [← h]
      omega
    | none =>
      rw [hr] at h
      by_cases hs : (spanKey s == K) = true
      · rw [if_pos hs] at h
        simp only [Option.some.injEq] at h
        simp [← h]
      · rw [if_neg hs] at h
        exact Option.noConfusion h

theorem lastKeyIdx_none_filter {K : String} :
    ∀ {l : List Span}, lastKeyIdx K l = none → l.filter (keyIs K) = [] := by
  intro l
  induction l with
  | nil => intro _; rfl
  | cons s rest ih =>
    intro h
    simp only [lastKeyIdx] at h
    cases hr : lastKeyIdx K rest with
    | some j => rw [hr] at h; exact Option.noConfusion h
    | none =>
      rw [hr] at h
      by_cases hs : (spanKey s == K) = true
      · rw [if_pos hs] at h; exact Option.noConfusion h
      · have hs' : keyIs K s = false := by simpa [keyIs] using hs
        simp [List.filter_cons, hs', ih hr]

theorem getLast?_cons_ne_nil {a : Span} {t : List Span} (h : t ≠ []) :
    (a :: t).getLast? = t.getLast? := by
  cases t with
  | nil => exact absurd rfl h
  | cons b u => exact List.getLast?_cons_cons

theorem getLast?_ne_nil {l : List Span} {x : Span} (h : l.getLast? = some x) :
    l ≠ [] := by
  intro hnil
  rw [hnil] at h
  exact Option.noConfusion h

theorem lastKeyIdx_filter_getLast {K : String} :
    ∀ {l : List Span} {i : Nat}, lastKeyIdx K l = some i →
    (l.filter (keyIs K)).getLast? = some (l.getD i default) := by
  intro l
  induction l with
  | nil => intro i h; exact Option.noConfusion h
  | cons s rest ih =>
    intro i h
    simp only [lastKeyIdx] at h
    cases hr : lastKeyIdx K rest with
    | some j =>
      rw [hr] at h
      simp only [Option.some.injEq] at h
      have htail := ih hr
      have hne : rest.filter (keyIs K) ≠ [] := getLast?_ne_nil htail
      rw [← h]
      by_cases hs : keyIs K s = true
      · rw [List.filter_cons_of_pos hs, getLast?_cons_ne_nil hne, htail]
        rfl
      · rw [List.filter_cons_of_neg (by simpa using hs), htail]
        rfl
    | none =>
      rw [hr] at h
      by_cases hs : (spanKey s == K) = true
      · rw [if_pos hs] at h
        simp only [Option.some.injEq] at h
        rw [← h]
        rw [List.filter_cons_of_pos (by simpa [keyIs] using hs),
          lastKeyIdx_none_filter hr]
        rfl
      · rw [if_neg hs] at h
        exact Option.noConfusion h

theorem lastKeyIdx_getD {K : String} {l : List Span} {i : Nat}
    (h : lastKeyIdx K l = some i) : (spanKey (l.getD i default) == K) = true := by
  have hfl := lastKeyIdx_filter_getLast h
  have hmem : l.getD i default ∈ l.filter (keyIs K) := by
    obtain ⟨hne, hx⟩ :=
      List.mem_getLast?_eq_getLast (Option.mem_def.mpr hfl)
    rw [hx]
    exact List.getLast_mem hne
  exact (List.mem_filter.mp hmem).2

theorem filter_set_false {p : Span → Bool} :
    ∀ {l : List Span} {i : Nat} {u : Span},
    p (l.getD i default) = false → p u = false →
    (l.set i u).filter p = l.filter p := by
  intro l
  induction l with
  | nil => intro i u _ _; rfl
  | cons s rest ih =>
    intro i u hold hu
    cases i with
    | zero =>
      have hs : p s = false := hold
      simp [List.set_cons_zero, List.filter_cons, hs, hu]
    | succ j =>
      have hold' : p (rest.getD j default) = false := hold
      simp only [List.set_cons_succ, List.filter_cons]
      rw [ih hold' hu]

theorem filter_set_last {K : String} :
    ∀ {l : List Span} {i : Nat} {u : Span},
    lastKeyIdx K l = some i → (spanKey u == K) = true →
    (l.set i u).filter (keyIs K) = (l.filter (keyIs K)).dropLast ++ [u] := by
  intro l
  induction l with
  | nil => intro i u h _; exact Option.noConfusion h
  | cons s rest ih =>
    intro i u h hu
    have hu' : keyIs K u = true := by simpa [keyIs] using hu
    simp only [lastKeyIdx] at h
    cases hr : lastKeyIdx K rest with
    | some j =>
      rw [hr] at h
      simp only [Option.some.injEq] at h
      have hne : rest.filter (keyIs K) ≠ [] :=
        getLast?_ne_nil (lastKeyIdx_filter_getLast hr)
      rw [← h]
      simp only [List.set_cons_succ, List.filter_cons]
      by_cases hs : keyIs K s = true
      · simp only [hs, if_pos]
        rw [ih hr hu]
        rw [List.dropLast_cons_of_ne_nil hne]
        simp
      · simp only [hs]
        rw [if_neg (by simp [hs]), if_neg (by simp [hs])]
        exact ih hr hu
    | none =>
      rw [hr] at h
      by_cases hs : (spanKey s == K) = true
      · rw [if_pos hs] at h
        simp only [Option.some.injEq] at h
        rw [← h]
        rw [List.set_cons_zero]
        rw [List.filter_cons_of_pos hu']
        rw [List.filter_cons_of_pos
          (show keyIs K s = true by simpa [keyIs] using hs)]
        rw [lastKeyIdx_none_filter hr]
        rfl
      · rw [if_neg hs] at h
        exact Option.noConfusion h

theorem lastKeyIdx_append_self {K : String} {item : Span}
    (h : (spanKey item == K) = true) :
    ∀ (l : List Span), lastKeyIdx K (l ++ [item]) = some l.length := by
  intro l
  induction l with
  | nil => simp [lastKeyIdx, h]
  | cons s rest ih => simp [lastKeyIdx, ih]

theorem lastKeyIdx_append_ne {K : String} {item : Span}
    (h : (spanKey item == K) = false) :
    ∀ (l : List Span), lastKeyIdx K (l ++ [item]) = lastKeyIdx K l := by
  intro l
  induction l with
  | nil => simp [lastKeyIdx, h]
  | cons s rest ih => simp [lastKeyIdx, ih]

theorem lastKeyIdx_set_samekey :
    ∀ {l : List Span} {i : Nat} {u : Span},
    spanKey u = spanKey (l.getD i default) →
    ∀ K, lastKeyIdx K (l.set i u) = lastKeyIdx K l := by
  intro l
  induction l with
  | nil => intro i u _ K; rfl
  | cons s rest ih =>
    intro i u hkey K
    cases i with
    | zero =>
      have hs : spanKey u = spanKey s := hkey
      simp [List.set_cons_zero, lastKeyIdx, hs]
    | succ j =>
      have hkey' : spanKey u = spanKey (rest.getD j default) := hkey
      simp [List.set_cons_succ, lastKeyIdx, ih hkey' K]

/-- The `latestByKey` map always holds the index of the last span with each
key. -/
def LatestInv (st : MergeState) : Prop :=
  ∀ K, st.latest.lookup K = lastKeyIdx K st.merged

theorem latestInv_init : LatestInv ⟨[], []⟩ := fun _ => rfl

theorem mergeStep_none {st : MergeState} {item : Span}
    (hl : st.latest.lookup (spanKey item) = none) :
    mergeStep st item =
      ⟨st.merged ++ [item], (spanKey item, st.merged.length) :: st.latest⟩ := by
  simp only [mergeStep, hl]

theorem mergeStep_merge {st : MergeState} {item : Span} {i : Nat}
    (hl : st.latest.lookup (spanKey item) = some i)
    (hgap : item.startSec ≤ (st.merged.getD i default).endSec + MERGE_GAP_SECONDS) :
    mergeStep st item = { st with merged := st.merged.set i (mergedSpan (st.merged.getD i default) item) } := by
  simp only [mergeStep, hl]
  rw [if_pos hgap]

theorem mergeStep_push {st : MergeState} {item : Span} {i : Nat}
    (hl : st.latest.lookup (spanKey item) = some i)
    (hgap : ¬ item.startSec ≤ (st.merged.getD i default).endSec + MERGE_GAP_SECONDS) :
    mergeStep st item =
      ⟨st.merged ++ [item], (spanKey item, st.merged.length) :: st.latest⟩ := by
  simp only [mergeStep, hl]
  rw [if_neg hgap]

theorem latestInv_push {st : MergeState} (h : LatestInv st) (item : Span) :
    LatestInv ⟨st.merged ++ [item],
      (spanKey item, st.merged.length) :: st.latest⟩ := by
  intro K
  by_cases hk : (K == spanKey item) = true
  · have hK : K = spanKey item := eq_of_beq hk
    subst hK
    simp only [List.lookup, beq_self_eq_true]
    exact (lastKeyIdx_append_self (beq_self_eq_true _) st.merged).symm
  · have hk2 : (K == spanKey item) = false := by simpa using hk
    simp only [List.lookup, hk2]
    have hne : (spanKey item == K) = false := by
      rw [beq_eq_false_iff_ne]
      intro he
      exact hk (by rw [he]; exact beq_self_eq_true K)
    rw [lastKeyIdx_append_ne hne st.merged]
    exact h K

theorem latestInv_step {st : MergeState} (h : LatestInv st) (item : Span) :
    LatestInv (mergeStep st item) := by
  cases hl : st.latest.lookup (spanKey item) with
  | none =>
    rw [mergeStep_none hl]
    exact latestInv_push h item
  | some i =>
    by_cases hgap : item.startSec ≤
        (st.merged.getD i default).endSec + MERGE_GAP_SECONDS
    · rw [mergeStep_merge hl hgap]
      intro K
      rw [lastKeyIdx_set_samekey (by rfl) K]
      exact h K
    · rw [mergeStep_push hl hgap]
      exact latestInv_push h item

theorem latestInv_fold :
    ∀ (ys : List Span) {st : MergeState}, LatestInv st →
    LatestInv (ys.foldl mergeStep st) := by
  intro ys
  induction ys with
  | nil => intro st h; exact h
  | cons y rest ih => intro st h; exact ih (latestInv_step h y)

/-- The single-key accumulator step corresponding to one `mergeStep` on the
spans of one key. -/
def merge1Step (acc : List Span) (item : Span) : List Span :=
  match acc.getLast? with
  | none => [item]
  | some last =>
    if item.startSec ≤ last.endSec + MERGE_GAP_SECONDS then
      acc.dropLast ++ [mergedSpan last item]
    else acc ++ [item]

theorem merge1Step_nil {acc : List Span} {item : Span}
    (h : acc.getLast? = none) : merge1Step acc item = [item] := by
  simp only [merge1Step, h]

theorem merge1Step_last {acc : List Span} {item last : Span}
    (h : acc.getLast? = some last) :
    merge1Step acc item =
      if item.startSec ≤ last.endSec + MERGE_GAP_SECONDS then
        acc.dropLast ++ [mergedSpan last item]
      else acc ++ [item] := by
  simp only [merge1Step, h]

theorem spanKey_mergedSpan (a b : Span) : spanKey (mergedSpan a b) = spanKey a :=
  rfl

theorem mergeStep_filter (K : String) {st : MergeState} (hInv : LatestInv st)
    (item : Span) :
    (mergeStep st item).merged.filter (keyIs K) =
      if keyIs K item then merge1Step (st.merged.filter (keyIs K)) item
      else st.merged.filter (keyIs K) := by
  cases hl : st.latest.lookup (spanKey item) with
  | none =>
    have hidx : lastKeyIdx (spanKey item) st.merged = none :=
      (hInv (spanKey item)).symm.trans hl
    rw [mergeStep_none hl]
    simp only [List.filter_append]
    by_cases hK : keyIs K item = true
    · have hKey : spanKey item = K := eq_of_beq hK
      have hempty : st.merged.filter (keyIs K) = [] := by
        rw [← hKey]
        exact lastKeyIdx_none_filter hidx
      rw [hK, if_pos rfl, hempty]
      simp [merge1Step, List.filter_cons, hK]
    · have hK2 : keyIs K item = false := by simpa using hK
      rw [hK2]
      simp [List.filter_cons, hK2]
  | some i =>
    have hidx : lastKeyIdx (spanKey item) st.merged = some i :=
      (hInv (spanKey item)).symm.trans hl
    have hlastkey := lastKeyIdx_getD hidx
    have hlastD := lastKeyIdx_filter_getLast hidx
    by_cases hgap : item.startSec ≤
        (st.merged.getD i default).endSec + MERGE_GAP_SECONDS
    · rw [mergeStep_merge hl hgap]
      by_cases hK : keyIs K item = true
      · have hKey : spanKey item = K := eq_of_beq hK
        have hukey : (spanKey (mergedSpan (st.merged.getD i default) item)
            == K) = true := by
          rw [spanKey_mergedSpan, ← hKey]
          exact hlastkey
        rw [hK, if_pos rfl]
        show (st.merged.set i (mergedSpan (st.merged.getD i default) item)).filter
          (keyIs K) = _
        rw [filter_set_last (hKey ▸ hidx) hukey]
        rw [hKey] at hlastD
        rw [merge1Step_last hlastD]
        rw [if_pos hgap]
      · have hK2 : keyIs K item = false := by simpa using hK
        rw [hK2]
        simp only [Bool.false_eq_true, if_false]
        have hsame : spanKey (st.merged.getD i default) = spanKey item :=
          eq_of_beq hlastkey
        refine filter_set_false ?_ ?_
        · show (spanKey (st.merged.getD i default) == K) = false
          rw [hsame]
          simpa [keyIs] using hK2
        · show (spanKey (mergedSpan (st.merged.getD i default) item) == K) = false
          rw [spanKey_mergedSpan, hsame]
          simpa [keyIs] using hK2
    · rw [mergeStep_push hl hgap]
      simp only [List.filter_append]
      by_cases hK : keyIs K item = true
      · have hKey : spanKey item = K := eq_of_beq hK
        rw [hK, if_pos rfl]
        rw [hKey] at hlastD
        rw [merge1Step_last hlastD]
        rw [if_neg hgap]
        simp [List.filter_cons, hK]
      · have hK2 : keyIs K item = false := by simpa using hK
        rw [hK2]
        simp [List.filter_cons, hK2]

theorem mergeFold_filter (K : String) :
    ∀ (ys : List Span) {st : MergeState}, LatestInv st →
    ((ys.foldl mergeStep st).merged).filter (keyIs K) =
      (ys.filter (keyIs K)).foldl merge1Step (st.merged.filter (keyIs K)) := by
  intro ys
  induction ys with
  | nil => intro st _; rfl
  | cons y rest ih =>
    intro st hInv
    rw [List.foldl_cons, List.filter_cons]
    cases hy : keyIs K y with
    | true =>
      rw [ih (latestInv_step hInv y), mergeStep_filter K hInv y, hy]
      rw [if_pos rfl, if_pos rfl, List.foldl_cons]
    | false =>
      rw [ih (latestInv_step hInv y), mergeStep_filter K hInv y, hy]
      rw [if_neg (by simp), if_neg (by simp)]

/-- Per-key restriction of the merge loop: the output spans of key `K` are
exactly those obtained by running the single-key step over the inputs of
key `K`. -/
theorem mergePass_filter (K : String) (ys : List Span) :
    (mergePass ys).filter (keyIs K) = (ys.filter (keyIs K)).foldl merge1Step [] := by
  unfold mergePass
  rw [mergeFold_filter K ys latestInv_init]
  rfl

/-- The gap between consecutive same-key output spans is strictly larger
than `MERGE_GAP_SECONDS`. -/
def gapRel (a b : Span) : Prop := a.endSec + MERGE_GAP_SECONDS < b.startSec

theorem chain'_gapRel_merge1 :
    ∀ (zs acc : List Span), List.Chain' gapRel acc →
    List.Chain' gapRel (zs.foldl merge1Step acc) := by
  intro zs
  induction zs with
  | nil => intro acc h; exact h
  | cons z rest ih =>
    intro acc h
    rw [List.foldl_cons]
    apply ih
    cases hl : acc.getLast? with
    | none => rw [merge1Step_nil hl]; exact List.chain'_singleton z
    | some last =>
      have hne : acc ≠ [] := getLast?_ne_nil hl
      rw [merge1Step_last hl]
      by_cases hgap : z.startSec ≤ last.endSec + MERGE_GAP_SECONDS
      · rw [if_pos hgap]
        have hdecomp : acc.dropLast ++ [last] = acc :=
          List.dropLast_append_getLast? last (Option.mem_def.mpr hl)
        rw [← hdecomp] at h
        rw [List.chain'_append] at h ⊢
        obtain ⟨h1, _, h3⟩ := h
        refine ⟨h1, List.chain'_singleton _, ?_⟩
        intro x hx y hy
        simp only [List.head?_cons, Option.mem_def, Option.some.injEq] at hy
        rw [← hy]
        have := h3 x hx last (by simp)
        exact this
      · rw [if_neg hgap]
        rw [List.chain'_append]
        refine ⟨h, List.chain'_singleton _, ?_⟩
        intro x hx y hy
        simp only [List.head?_cons, Option.mem_def, Option.some.injEq] at hy
        rw [Option.mem_def, hl, Option.some.injEq] at hx
        rw [← hy, ← hx]
        exact lt_of_not_ge hgap

/-- Consecutive same-key spans of `mergeBehaviors`' output are separated by
more than the merge gap. -/
theorem mergeBehaviors_gap_chain (K : String) (xs : List Span) :
    List.Chain' gapRel ((mergeBehaviors xs).filter (keyIs K)) := by
  unfold mergeBehaviors
  rw [mergePass_filter K]
  exact chain'_gapRel_merge1 _ [] List.chain'_nil

/-- Any span property preserved by absorption is preserved by the merge
loop. -/
theorem mergeFold_preserve (P : Span → Prop)
    (hstep : ∀ a b, P a → P b → P (mergedSpan a b)) :
    ∀ (ys : List Span) (st : MergeState), (∀ s ∈ st.merged, P s) →
    (∀ it ∈ ys, P it) → ∀ s ∈ (ys.foldl mergeStep st).merged, P s := by
  intro ys
  induction ys with
  | nil => intro st hst _ s hs; exact hst s hs
  | cons y rest ih =>
    intro st hst hys s hs
    rw [List.foldl_cons] at hs
    refine ih (mergeStep st y) ?_
      (fun it hit => hys it (List.mem_cons_of_mem _ hit)) s hs
    intro t ht
    have hPy : P y := hys y (List.mem_cons_self _ _)
    cases hl : st.latest.lookup (spanKey y) with
    | none =>
      rw [mergeStep_none hl] at ht
      rcases List.mem_append.mp ht with h1 | h2
      · exact hst t h1
      · rw [List.mem_singleton.mp h2]; exact hPy
    | some i =>
      by_cases hgap : y.startSec ≤ (st.merged.getD i default).endSec +
          MERGE_GAP_SECONDS
      · rw [mergeStep_merge hl hgap] at ht
        by_cases hi : i < st.merged.length
        · rcases List.mem_or_eq_of_mem_set ht with h1 | h2
          · exact hst t h1
          · rw [h2]
            have hmem : st.merged.getD i default ∈ st.merged := by
              rw [List.getD_eq_getElem _ _ hi]
              exact List.getElem_mem hi
            exact hstep _ _ (hst _ hmem) hPy
        · rw [show st.merged.set i (mergedSpan (st.merged.getD i default) y) =
              st.merged from List.set_eq_of_length_le (le_of_not_lt hi)] at ht
          exact hst t ht
      · rw [mergeStep_push hl hgap] at ht
        rcases List.mem_append.mp ht with h1 | h2
        · exact hst t h1
        · rw [List.mem_singleton.mp h2]; exact hPy

/-- Every output span of `mergeBehaviors` opens with some input item: same
behavior, modality and start, and an end at least the item's end. -/
theorem mergeBehaviors_provenance (xs : List Span) :
    ∀ s ∈ mergeBehaviors xs, ∃ it ∈ xs, s.behavior = it.behavior ∧
      s.modality = it.modality ∧ s.startSec = it.startSec ∧
      it.endSec ≤ s.endSec := by
  intro s hs
  have hmem : ∀ it ∈ sortByStart xs, it ∈ xs := fun it hit =>
    (List.perm_insertionSort byStart xs).mem_iff.mp hit
  refine mergeFold_preserve
    (fun t => ∃ it ∈ xs, t.behavior = it.behavior ∧ t.modality = it.modality ∧
      t.startSec = it.startSec ∧ it.endSec ≤ t.endSec) ?_
    (sortByStart xs) ⟨[], []⟩ (by simp)
    (fun it hit => ⟨it, hmem it hit, rfl, rfl, rfl, le_rfl⟩) s hs
  rintro a b ⟨it, hit, h1, h2, h3, h4⟩ _
  exact ⟨it, hit, h1, h2, h3, le_trans h4 (le_max_left _ _)⟩

theorem sorted_set_same_start {l : List Span} {i : Nat} {u : Span}
    (hs : List.Sorted byStart l)
    (hst : u.startSec = (l.getD i default).startSec) :
    List.Sorted byStart (l.set i u) := by
  by_cases hi : i < l.length
  · rw [List.getD_eq_getElem _ _ hi] at hst
    have hp := List.pairwise_iff_getElem.mp hs
    refine List.pairwise_iff_getElem.mpr ?_
    intro a b ha hb hab
    rw [List.length_set] at ha hb
    rw [List.getElem_set, List.getElem_set]
    by_cases hia : i = a
    · rw [if_pos hia]
      by_cases hib : i = b
      · omega
      · rw [if_neg hib]
        show u.startSec ≤ _
        rw [hst]
        exact hp i b (by omega) hb (by omega)
    · rw [if_neg hia]
      by_cases hib : i = b
      · rw [if_pos hib]
        show _ ≤ u.startSec
        rw [hst]
        exact hp a i ha (by omega) (by omega)
      · rw [if_neg hib]
        exact hp a b ha hb hab
  · rw [List.set_eq_of_length_le (le_of_not_lt hi)]
    exact hs

theorem mergeFold_sorted :
    ∀ (ys : List Span) (st : MergeState), List.Sorted byStart ys →
    List.Sorted byStart st.merged →
    (∀ s ∈ st.merged, ∀ y ∈ ys, s.startSec ≤ y.startSec) →
    LatestInv st →
    List.Sorted byStart ((ys.foldl mergeStep st).merged) := by
  intro ys
  induction ys with
  | nil => intro st _ hsm _ _; exact hsm
  | cons y rest ih =>
    intro st hsy hsm hbound hInv
    rw [List.foldl_cons]
    have hyrest : ∀ b ∈ rest, y.startSec ≤ b.startSec :=
      (List.sorted_cons.mp hsy).1
    have hsrest : List.Sorted byStart rest := (List.sorted_cons.mp hsy).2
    have hpush_sorted : List.Sorted byStart (st.merged ++ [y]) := by
      refine List.pairwise_append.mpr ⟨hsm, List.pairwise_singleton _ _, ?_⟩
      intro a ha b hb
      rw [List.mem_singleton.mp hb]
      exact hbound a ha y (List.mem_cons_self _ _)
    have hpush_bound : ∀ s ∈ st.merged ++ [y], ∀ b ∈ rest,
        s.startSec ≤ b.startSec := by
      intro s hsmem b hb
      rcases List.mem_append.mp hsmem with h1 | h2
      · exact hbound s h1 b (List.mem_cons_of_mem _ hb)
      · rw [List.mem_singleton.mp h2]
        exact hyrest b hb
    cases hl : st.latest.lookup (spanKey y) with
    | none =>
      rw [mergeStep_none hl]
      exact ih _ hsrest hpush_sorted hpush_bound
        (by rw [← mergeStep_none hl]; exact latestInv_step hInv y)
    | some i =>
      by_cases hgap : y.startSec ≤ (st.merged.getD i default).endSec +
          MERGE_GAP_SECONDS
      · rw [mergeStep_merge hl hgap]
        have hidx : lastKeyIdx (spanKey y) st.merged = some i :=
          (hInv _).symm.trans hl
        have hi : i < st.merged.length := lastKeyIdx_lt hidx
        have hmem : st.merged.getD i default ∈ st.merged := by
          rw [List.getD_eq_getElem _ _ hi]
          exact List.getElem_mem hi
        refine ih _ hsrest (sorted_set_same_start hsm rfl) ?_
          (by rw [← mergeStep_merge hl hgap]; exact latestInv_step hInv y)
        intro s hsmem b hb
        rcases List.mem_or_eq_of_mem_set hsmem with h1 | h2
        · exact hbound s h1 b (List.mem_cons_of_mem _ hb)
        · rw [h2]
          show (st.merged.getD i default).startSec ≤ b.startSec
          exact hbound _ hmem b (List.mem_cons_of_mem _ hb)
      · rw [mergeStep_push hl hgap]
        exact ih _ hsrest hpush_sorted hpush_bound
          (by rw [← mergeStep_push hl hgap]; exact latestInv_step hInv y)

theorem mergeBehaviors_sorted (xs : List Span) :
    List.Sorted byStart (mergeBehaviors xs) :=
  mergeFold_sorted (sortByStart xs) ⟨[], []⟩
    (List.sorted_insertionSort byStart xs) (List.sorted_nil)
    (by intro s hs; exact absurd hs (List.not_mem_nil s)) latestInv_init

/-- If the input is already in processing order and every key's spans are
separated by more than the merge gap, the merge loop is the identity. -/
theorem mergeFold_id :
    ∀ (rest p : List Span) (st : MergeState), st.merged = p → LatestInv st →
    (∀ K, List.Chain' gapRel ((p ++ rest).filter (keyIs K))) →
    (rest.foldl mergeStep st).merged = p ++ rest := by
  intro rest
  induction rest with
  | nil => intro p st hm _ _; rw [List.foldl_nil, hm, List.append_nil]
  | cons item rest2 ih =>
    intro p st hm hInv hgap
    rw [List.foldl_cons]
    have hmerged : mergeStep st item =
        ⟨st.merged ++ [item], (spanKey item, st.merged.length) :: st.latest⟩ := by
      cases hl : st.latest.lookup (spanKey item) with
      | none => exact mergeStep_none hl
      | some i =>
        have hidx : lastKeyIdx (spanKey item) st.merged = some i :=
          (hInv _).symm.trans hl
        have hlastD := lastKeyIdx_filter_getLast hidx
        rw [hm] at hlastD
        have hK := hgap (spanKey item)
        have hfsplit : (p ++ item :: rest2).filter (keyIs (spanKey item)) =
            p.filter (keyIs (spanKey item)) ++
              item :: rest2.filter (keyIs (spanKey item)) := by
          rw [List.filter_append, List.filter_cons,
            if_pos (show keyIs (spanKey item) item = true by
              simp [keyIs])]
        rw [hfsplit, List.chain'_append] at hK
        obtain ⟨_, _, h3⟩ := hK
        have hrel : gapRel (p.getD i default) item := by
          apply h3
          · exact Option.mem_def.mpr hlastD
          · simp
        have hgapfail : ¬ item.startSec ≤
            (st.merged.getD i default).endSec + MERGE_GAP_SECONDS := by
          rw [hm]
          exact not_le.mpr hrel
        exact mergeStep_push hl hgapfail
    have h2 := ih (p ++ [item]) (mergeStep st item)
      (by rw [hmerged, hm]) (latestInv_step hInv item)
      (by intro K
          have := hgap K
          rwa [show (p ++ [item]) ++ rest2 = p ++ item :: rest2 by
            rw [List.append_assoc]; rfl])
    rw [h2, List.append_assoc]
    rfl

theorem mergePass_id (ys : List Span)
    (hgap : ∀ K, List.Chain' gapRel (ys.filter (keyIs K))) :
    mergePass ys = ys := by
  unfold mergePass
  have h := mergeFold_id ys [] ⟨[], []⟩ rfl latestInv_init
    (by simpa using hgap)
  simpa using h

theorem sortByStart_of_sorted {l : List Span} (h : List.Sorted byStart l) :
    sortByStart l = l :=
  List.Sorted.insertionSort_eq h

/-- C6: `mergeBehaviors` is idempotent: merging an already-merged list
returns it unchanged (same length, same spans, same order). -/
theorem mergeBehaviors_idempotent (xs : List Span) :
    mergeBehaviors (mergeBehaviors xs) = mergeBehaviors xs := by
  show mergePass (sortByStart (mergeBehaviors xs)) = mergeBehaviors xs
  rw [sortByStart_of_sorted (mergeBehaviors_sorted xs)]
  exact mergePass_id _ (fun K => mergeBehaviors_gap_chain K xs)

theorem orderedInsert_eq_cons {x : Span} {l : List Span}
    (h : ∀ z ∈ l, byStart x z) : List.orderedInsert byStart x l = x :: l := by
  cases l with
  | nil => rfl
  | cons z t => rw [List.orderedInsert, if_pos (h z (List.mem_cons_self z t))]

theorem filter_orderedInsert (p : Span → Bool) (x : Span) :
    ∀ (l : List Span), List.Sorted byStart l →
    (List.orderedInsert byStart x l).filter p =
      if p x then List.orderedInsert byStart x (l.filter p) else l.filter p := by
  intro l
  induction l with
  | nil =>
    intro _
    cases hp : p x with
    | true => simp [List.orderedInsert, List.filter_cons, hp]
    | false => simp [List.orderedInsert, List.filter_cons, hp]
  | cons y t ih =>
    intro hsort
    obtain ⟨hyall, hst⟩ := List.sorted_cons.mp hsort
    rw [List.orderedInsert]
    by_cases hxy : byStart x y
    · rw [if_pos hxy]
      cases hp : p x with
      | true =>
        have hall : ∀ z ∈ (y :: t).filter p, byStart x z := by
          intro z hz
          rcases List.mem_cons.mp (List.mem_filter.mp hz).1 with rfl | hz2
          · exact hxy
          · exact le_trans hxy (hyall z hz2)
        rw [if_pos rfl, List.filter_cons, if_pos hp, orderedInsert_eq_cons hall]
      | false =>
        rw [if_neg (by simp), List.filter_cons, if_neg (by simp [hp])]
    · rw [if_neg hxy, List.filter_cons, ih hst, List.filter_cons]
      by_cases hp : p x = true <;> by_cases hq : p y = true <;>
        simp [hp, hq, List.orderedInsert, hxy]

theorem filter_sortByStart (p : Span → Bool) :
    ∀ (l : List Span), (sortByStart l).filter p = sortByStart (l.filter p) := by
  intro l
  induction l with
  | nil => rfl
  | cons x t ih =>
    have h1 : sortByStart (x :: t) = List.orderedInsert byStart x (sortByStart t) :=
      rfl
    rw [h1, filter_orderedInsert p x (sortByStart t)
      (List.sorted_insertionSort byStart t), ih, List.filter_cons]
    cases hp : p x with
    | true => rw [if_pos rfl, if_pos rfl]; rfl
    | false => rw [if_neg (by simp), if_neg (by simp)]

theorem filter_keyIs_idem (K : String) (xs : List Span) :
    (xs.filter (keyIs K)).filter (keyIs K) = xs.filter (keyIs K) :=
  List.filter_eq_self.mpr (fun a ha => (List.mem_filter.mp ha).2)

/-- Restriction to one string key commutes with the merge: the output of
key `K` equals the merge of the inputs of key `K`. -/
theorem mergeBehaviors_filter_keyIs (K : String) (xs : List Span) :
    (mergeBehaviors xs).filter (keyIs K) =
      mergeBehaviors (xs.filter (keyIs K)) := by
  have h3 : (mergeBehaviors (xs.filter (keyIs K))).filter (keyIs K) =
      mergeBehaviors (xs.filter (keyIs K)) := by
    apply List.filter_eq_self.mpr
    intro s hs
    obtain ⟨it, hit, hb, hm, -, -⟩ := mergeBehaviors_provenance _ s hs
    have hkit : keyIs K it = true := (List.mem_filter.mp hit).2
    simp only [keyIs, spanKey, hb, hm] at hkit ⊢
    exact hkit
  calc (mergeBehaviors xs).filter (keyIs K)
      = ((sortByStart xs).filter (keyIs K)).foldl merge1Step [] :=
        mergePass_filter K (sortByStart xs)
    _ = (sortByStart (xs.filter (keyIs K))).foldl merge1Step [] := by
        rw [filter_sortByStart]
    _ = ((sortByStart (xs.filter (keyIs K))).filter (keyIs K)).foldl
          merge1Step [] := by
        rw [filter_sortByStart, filter_keyIs_idem]
    _ = (mergeBehaviors (xs.filter (keyIs K))).filter (keyIs K) :=
        (mergePass_filter K (sortByStart (xs.filter (keyIs K)))).symm
    _ = mergeBehaviors (xs.filter (keyIs K)) := h3

theorem append_bar_inj :
    ∀ (x y u v : List Char), '|' ∉ x → '|' ∉ y →
    x ++ '|' :: u = y ++ '|' :: v → x = y ∧ u = v := by
  intro x
  induction x with
  | nil =>
    intro y u v _ hy h
    cases y with
    | nil =>
      refine ⟨rfl, ?_⟩
      simpa using h
    | cons c t =>
      simp only [List.nil_append, List.cons_append] at h
      injection h with h1 h2
      subst h1
      exact absurd (List.mem_cons_self _ _) hy
  | cons c t ih =>
    intro y u v hx hy h
    cases y with
    | nil =>
      simp only [List.cons_append, List.nil_append] at h
      injection h with h1 h2
      subst h1
      exact absurd (List.mem_cons_self _ _) hx
    | cons c2 t2 =>
      simp only [List.cons_append] at h
      injection h with h1 h2
      have hx' : '|' ∉ t := fun hm => hx (List.mem_cons_of_mem _ hm)
      have hy' : '|' ∉ t2 := fun hm => hy (List.mem_cons_of_mem _ hm)
      obtain ⟨e1, e2⟩ := ih t2 u v hx' hy' h2
      exact ⟨by rw [h1, e1], e2⟩

/-- As long as the behavior names are free of the separator character,
the string key determines the `(behavior, modality)` pair. -/
theorem spanKey_inj {s : Span} {b m : String}
    (hsb : '|' ∉ s.behavior.data) (hb : '|' ∉ b.data)
    (h : spanKey s = b ++ "|" ++ m) : s.behavior = b ∧ s.modality = m := by
  have hdata : s.behavior.data ++ '|' :: s.modality.data =
      b.data ++ '|' :: m.data := by
    have h2 := congrArg String.data h
    simpa [spanKey, String.data_append] using h2
  obtain ⟨e1, e2⟩ := append_bar_inj _ _ _ _ hsb hb hdata
  exact ⟨String.ext e1, String.ext e2⟩

/-- The predicate selecting spans of one exact `(behavior, modality)`
pair. -/
def pairIs (b m : String) (s : Span) : Bool :=
  s.behavior == b && s.modality == m

theorem pairIs_iff_keyIs {s : Span} {b m : String}
    (hsb : '|' ∉ s.behavior.data) (hb : '|' ∉ b.data) :
    pairIs b m s = keyIs (b ++ "|" ++ m) s := by
  cases hk : keyIs (b ++ "|" ++ m) s with
  | true =>
    have hkey : spanKey s = b ++ "|" ++ m := by
      simpa [keyIs] using hk
    obtain ⟨e1, e2⟩ := spanKey_inj hsb hb hkey
    simp [pairIs, e1, e2]
  | false =>
    cases hp : pairIs b m s with
    | true =>
      obtain ⟨e1, e2⟩ : s.behavior = b ∧ s.modality = m := by
        simpa [pairIs] using hp
      have hkt : keyIs (b ++ "|" ++ m) s = true := by
        simp [keyIs, spanKey, e1, e2]
      rw [hk] at hkt
      exact Bool.noConfusion hkt
    | false => rfl

/-- C7 (amended): when no behavior name contains the key separator `'|'`,
`mergeBehaviors` combines only items of identical `(behavior, modality)`:
restricting the output to a pair equals merging the input restricted to
that pair, and every output span carries the behavior and modality of one
input item. -/
theorem mergeBehaviors_type_safe (xs : List Span)
    (hx : ∀ s ∈ xs, '|' ∉ s.behavior.data)
    (b m : String) (hb : '|' ∉ b.data) :
    (mergeBehaviors xs).filter (pairIs b m) =
      mergeBehaviors (xs.filter (pairIs b m)) ∧
    ∀ s ∈ mergeBehaviors xs, ∃ it ∈ xs,
      s.behavior = it.behavior ∧ s.modality = it.modality := by
  have hout : ∀ s ∈ mergeBehaviors xs, '|' ∉ s.behavior.data := by
    intro s hs
    obtain ⟨it, hit, hbeq, -, -, -⟩ := mergeBehaviors_provenance xs s hs
    rw [hbeq]; exact hx it hit
  have hc1 : xs.filter (pairIs b m) = xs.filter (keyIs (b ++ "|" ++ m)) :=
    List.filter_congr (fun s hs => pairIs_iff_keyIs (hx s hs) hb)
  have hc2 : (mergeBehaviors xs).filter (pairIs b m) =
      (mergeBehaviors xs).filter (keyIs (b ++ "|" ++ m)) :=
    List.filter_congr (fun s hs => pairIs_iff_keyIs (hout s hs) hb)
  refine ⟨?_, ?_⟩
  · rw [hc2, hc1, mergeBehaviors_filter_keyIs]
  · intro s hs
    obtain ⟨it, hit, h1, h2, -, -⟩ := mergeBehaviors_provenance xs s hs
    exact ⟨it, hit, h1, h2⟩

def c7w1 : Span := ⟨"crying", "audio", 0, 1, ""⟩

def c7w2 : Span := ⟨"crying", "audio", 10, 11, ""⟩

/-- Witness for the amended C7 statement at a concrete bar-free input. -/
theorem mergeBehaviors_type_safe_witness :
    (∀ s ∈ [c7w1, c7w2], '|' ∉ s.behavior.data) ∧
      ('|' ∉ "crying".data) ∧
    ((mergeBehaviors [c7w1, c7w2]).filter (pairIs "crying" "audio") =
        mergeBehaviors ([c7w1, c7w2].filter (pairIs "crying" "audio")) ∧
      ∀ s ∈ mergeBehaviors [c7w1, c7w2], ∃ it ∈ [c7w1, c7w2],
        s.behavior = it.behavior ∧ s.modality = it.modality) :=
  ⟨by decide, by decide,
    mergeBehaviors_type_safe [c7w1, c7w2] (by decide) "crying" "audio"
      (by decide)⟩

def c7a : Span := ⟨"a|visual", "x", 0, 1, ""⟩

def c7b : Span := ⟨"a", "visual|x", 2, 3, ""⟩

/-- C7 counterexample: a `'|'` inside a behavior name makes two spans with
different `(behavior, modality)` pairs share the string key
`"a|visual|x"`, so they are combined into one span and the per-pair
restriction equation of the claim fails. -/
theorem mergeBehaviors_bar_collision :
    mergeBehaviors [c7a, c7b] = [⟨"a|visual", "x", 0, 3, ""⟩] ∧
    (mergeBehaviors [c7a, c7b]).filter (pairIs "a" "visual|x") ≠
      mergeBehaviors ([c7a, c7b].filter (pairIs "a" "visual|x")) := by
  have hsorted : List.Sorted byStart [c7a, c7b] := by
    refine List.sorted_cons.mpr ⟨?_, List.sorted_singleton _⟩
    intro z hz
    rw [List.mem_singleton.mp hz]
    show (0 : ℚ) ≤ 2
    norm_num
  have hsort : sortByStart [c7a, c7b] = [c7a, c7b] :=
    sortByStart_of_sorted hsorted
  have hm1 : mergeStep ⟨[], []⟩ c7a = ⟨[c7a], [(spanKey c7a, 0)]⟩ :=
    mergeStep_none rfl
  have hbeq : (spanKey c7b == spanKey c7a) = true := by decide
  have hlook : List.lookup (spanKey c7b) [(spanKey c7a, (0 : Nat))] =
      some 0 := by
    simp [List.lookup, hbeq]
  have hcond : c7b.startSec ≤
      (([c7a].getD 0 default).endSec + MERGE_GAP_SECONDS) := by
    show (2 : ℚ) ≤ (1 : ℚ) + MERGE_GAP_SECONDS
    norm_num [MERGE_GAP_SECONDS]
  have hm2 : mergeStep ⟨[c7a], [(spanKey c7a, 0)]⟩ c7b =
      ⟨[mergedSpan c7a c7b], [(spanKey c7a, 0)]⟩ :=
    @mergeStep_merge ⟨[c7a], [(spanKey c7a, 0)]⟩ c7b 0 hlook hcond
  have hmax : max (1 : ℚ) 3 = 3 := by norm_num
  have hnotes : mergeNotes "" "" = "" := by simp [mergeNotes]
  have hmerged : mergedSpan c7a c7b = ⟨"a|visual", "x", 0, 3, ""⟩ := by
    show (⟨"a|visual", "x", 0, max (1 : ℚ) 3, mergeNotes "" ""⟩ : Span) = _
    rw [hmax, hnotes]
  have hfold : mergeBehaviors [c7a, c7b] = [⟨"a|visual", "x", 0, 3, ""⟩] := by
    show mergePass (sortByStart [c7a, c7b]) = _
    rw [hsort]
    show ([c7a, c7b].foldl mergeStep ⟨[], []⟩).merged = _
    rw [List.foldl_cons, hm1, List.foldl_cons, hm2, List.foldl_nil, hmerged]
  refine ⟨hfold, ?_⟩
  rw [hfold]
  decide

/-! ## Time bounds of emitted artifacts (C1, C9)

Every span written to an artifact is produced by `round3Span` from a span
whose duration `enforceMinimumDuration` raised to at least 0.8 s, and the
merge stage only extends durations; `GoodSpan` packages the resulting
invariant. -/

def GoodSpan (s : Span) : Prop :=
  Dec3 s.startSec ∧ Dec3 s.endSec ∧
  MIN_ACTION_DURATION_SECONDS - 1 / 1000 ≤ s.endSec - s.startSec

theorem enforce_duration_ge {s e : Option ℚ} {m : ℚ} {p : ℚ × ℚ}
    (h : enforceMinimumDuration s e m = some p) : m ≤ p.2 - p.1 := by
  cases s with
  | none => simp [enforceMinimumDuration] at h
  | some sv =>
    cases e with
    | none => simp [enforceMinimumDuration] at h
    | some ev =>
      simp only [enforceMinimumDuration] at h
      by_cases hc : m ≤ ev - sv
      · rw [if_pos hc, Option.some.injEq] at h
        rw [← h]
        exact hc
      · rw [if_neg hc, Option.some.injEq] at h
        rw [← h]
        simp

theorem round3Span_goodSpan {s : Span}
    (hd : MIN_ACTION_DURATION_SECONDS ≤ s.endSec - s.startSec) :
    GoodSpan (round3Span s) :=
  ⟨round3_dec3 _, round3_dec3 _, round3_sub_ge hd⟩

theorem processDetections_goodSpan (seg : Segment) (out : DetectOutcome) :
    ∀ s ∈ processDetections seg out, GoodSpan s := by
  intro s hs
  cases out with
  | skipUnit => simp [processDetections] at hs
  | failed => simp [processDetections] at hs
  | notArray => simp [processDetections] at hs
  | items l =>
    simp only [processDetections, List.mem_filterMap] at hs
    obtain ⟨it, hit, hbind⟩ := hs
    cases hadj : adjustItem it with
    | none => rw [hadj] at hbind; simp at hbind
    | some s0 =>
      rw [hadj] at hbind
      rw [Option.some_bind] at hbind
      by_cases hf : detectionFilter s0 = true
      · rw [if_pos hf, Option.some.injEq] at hbind
        rw [← hbind]
        apply round3Span_goodSpan
        have hex : ∃ p, enforceMinimumDuration it.startSec it.endSec
            MIN_ACTION_DURATION_SECONDS = some p ∧
            (⟨it.behavior, it.modality, p.1, p.2, it.notes⟩ : Span) = s0 := by
          simpa [adjustItem] using hadj
        obtain ⟨p, hp, hs0⟩ := hex
        rw [← hs0]
        exact enforce_duration_ge hp
      · rw [if_neg hf] at hbind
        exact absurd hbind (by simp)

theorem mergeBehaviors_goodSpan {xs : List Span}
    (hxs : ∀ s ∈ xs, GoodSpan s) :
    ∀ s ∈ mergeBehaviors xs, GoodSpan s := by
  intro s hs
  have hmem : ∀ it ∈ sortByStart xs, GoodSpan it := fun it hit =>
    hxs it ((List.perm_insertionSort byStart xs).mem_iff.mp hit)
  refine mergeFold_preserve GoodSpan ?_ (sortByStart xs) ⟨[], []⟩
    (by simp) hmem s hs
  rintro a b ⟨ha1, ha2, ha3⟩ ⟨hb1, hb2, hb3⟩
  refine ⟨ha1, dec3_max ha2 hb2, ?_⟩
  have hle : a.endSec ≤ max a.endSec b.endSec := le_max_left _ _
  show MIN_ACTION_DURATION_SECONDS - 1 / 1000 ≤
    max a.endSec b.endSec - a.startSec
  linarith

theorem map_round3Span_goodSpan {l : List Span}
    (hl : ∀ s ∈ l, GoodSpan s) :
    ∀ s ∈ l.map round3Span, GoodSpan s := by
  intro s hs
  obtain ⟨t, ht, rfl⟩ := List.mem_map.mp hs
  obtain ⟨h1, h2, h3⟩ := hl t ht
  have e : round3Span t = t := by
    show (⟨t.behavior, t.modality, round3 t.startSec, round3 t.endSec,
      t.notes⟩ : Span) = t
    rw [dec3_round3_eq h1, dec3_round3_eq h2]
  rw [e]
  exact ⟨h1, h2, h3⟩

theorem mem_of_mem_enumFrom {α : Type} :
    ∀ (l : List α) (n : Nat) (p : Nat × α), p ∈ List.enumFrom n l →
      p.2 ∈ l := by
  intro l
  induction l with
  | nil => intro n p hp; simp [List.enumFrom] at hp
  | cons x t ih =>
    intro n p hp
    simp only [List.enumFrom] at hp
    rcases List.mem_cons.mp hp with rfl | h2
    · exact List.mem_cons_self _ _
    · exact List.mem_cons_of_mem _ (ih (n + 1) p h2)

theorem rawDetections_goodSpan (run : AnalyzerRun) :
    ∀ s ∈ rawDetections run, GoodSpan s := by
  intro s hs
  simp only [rawDetections, List.mem_flatMap] at hs
  obtain ⟨p, hp, hmem⟩ := hs
  exact processDetections_goodSpan p.2 (run.detect p.1) s hmem

theorem validateUnit_goodSpan {D : ℚ} {item : Span} {out : ValOutcome}
    (hitem : GoodSpan item)
    (hc : (validateUnit D item out).correct = true) :
    GoodSpan (validateUnit D item out).span := by
  cases out with
  | notObject => exact Bool.noConfusion hc
  | skipUnit => exact hitem
  | failed => exact hitem
  | parsed c s e =>
    cases c with
    | false => exact Bool.noConfusion hc
    | true =>
      simp only [validateUnit] at hc ⊢
      rw [if_pos trivial] at hc ⊢
      split at hc
      · exact Bool.noConfusion hc
      · rename_i p heq
        exact ⟨round3_dec3 _, round3_dec3 _,
          round3_sub_ge (enforce_duration_ge heq)⟩

theorem validatedOnly_goodSpan (run : AnalyzerRun) :
    ∀ v ∈ validatedOnly run, GoodSpan v.span := by
  intro v hv
  obtain ⟨hmem, hcor⟩ := List.mem_filter.mp hv
  simp only [validatedEntries, List.mem_map] at hmem
  obtain ⟨p, hp, rfl⟩ := hmem
  have hgood : ∀ s ∈ mergedBeforeValidation run, GoodSpan s :=
    map_round3Span_goodSpan
      (mergeBehaviors_goodSpan (rawDetections_goodSpan run))
  exact validateUnit_goodSpan
    (hgood p.2 (mem_of_mem_enumFrom (mergedBeforeValidation run) 0 p hp)) hcor

theorem emitted_goodSpan (run : AnalyzerRun) :
    ∀ s ∈ emittedArtifactSpans run, GoodSpan s := by
  intro s hs
  simp only [emittedArtifactSpans, List.mem_append] at hs
  rcases hs with (h1 | h2) | h3
  · exact rawDetections_goodSpan run s h1
  · obtain ⟨v, hv, rfl⟩ := List.mem_map.mp h2
    exact validatedOnly_goodSpan run v hv
  · simp only [finalBehaviors] at h3
    refine map_round3Span_goodSpan (mergeBehaviors_goodSpan ?_) s h3
    intro t ht
    obtain ⟨v, hv, rfl⟩ := List.mem_map.mp ht
    exact validatedOnly_goodSpan run v hv

/-- C9: every behavior in any emitted artifact (raw, validated, final) has
duration at least `MIN_ACTION_DURATION_SECONDS - 1/1000`: the 0.8 s
minimum is enforced before rounding, and rounding both stored times to
three decimals costs at most `1/1000`. -/
theorem emitted_min_duration (run : AnalyzerRun) :
    (emittedArtifactSpans run).all
      (fun s => decide (MIN_ACTION_DURATION_SECONDS - 1 / 1000 ≤
        s.endSec - s.startSec)) = true := by
  rw [List.all_eq_true]
  intro s hs
  exact decide_eq_true (emitted_goodSpan run s hs).2.2

/-- C1 (amended): every behavior in any emitted artifact has
`startSec < endSec`; nothing clamps the stored times to `[0, duration]`. -/
theorem emitted_start_lt_end (run : AnalyzerRun) :
    (emittedArtifactSpans run).all
      (fun s => decide (s.startSec < s.endSec)) = true := by
  rw [List.all_eq_true]
  intro s hs
  refine decide_eq_true ?_
  have h := (emitted_goodSpan run s hs).2.2
  have hm : (0 : ℚ) < MIN_ACTION_DURATION_SECONDS - 1 / 1000 := by
    norm_num [MIN_ACTION_DURATION_SECONDS]
  linarith

/-- A run whose only detection reports bounds outside `[0, duration]`. -/
def cRunC1 : AnalyzerRun :=
  ⟨20,
   fun n => if n = 0 then
      .items [⟨"crying", "audio", some (-1), some 35, ""⟩]
    else .skipUnit,
   fun _ => .skipUnit⟩

/-- C1 counterexample: the analyzer never clamps model times to
`[0, duration]`; a detection reported as `[-1, 35]` on a 20 s video is
emitted in `behaviors_raw.json` with `startSec = -1 < 0` and
`endSec = 35 > 20`. -/
theorem emitted_time_bounds_violated :
    ∃ s ∈ emittedArtifactSpans cRunC1,
      s.startSec < 0 ∧ cRunC1.durationSec < s.endSec := by
  have hseg : buildSegments 20 = [⟨0, 20⟩] := by
    rw [buildSegments, buildSegmentsAux]
    norm_num [CHUNK_SECONDS, round3, round_eq]
  have h1 : strTrim (strLower "crying") = "crying" := by decide
  have h2 : strTrim (strLower "audio") = "audio" := by decide
  have h3 : strTrim "" = "" := by decide
  have h4 : (("audio" : String) != "") = true := by decide
  have hshift : shiftItem ⟨0, 20⟩ ⟨"crying", "audio", some (-1),
      some 35, ""⟩ = ⟨"crying", "audio", some (-1), some 35, ""⟩ := by
    simp [shiftItem, h1, h2, h3, h4]
  have hcond : MIN_ACTION_DURATION_SECONDS ≤ (35 : ℚ) - -1 := by
    norm_num [MIN_ACTION_DURATION_SECONDS]
  have hadj : adjustItem ⟨"crying", "audio", some (-1), some 35, ""⟩ =
      some ⟨"crying", "audio", -1, 35, ""⟩ := by
    simp only [enforceMinimumDuration, adjustItem]
    rw [if_pos hcond]
    rfl
  have hfil : detectionFilter ⟨"crying", "audio", -1, 35, ""⟩ = true := by
    rw [detectionFilter]
    simp only [Bool.and_eq_true]
    refine ⟨⟨by decide, by decide⟩, ?_⟩
    rw [decide_eq_true_eq]
    show (-1 : ℚ) < 35
    norm_num
  have hround : round3Span ⟨"crying", "audio", -1, 35, ""⟩ =
      ⟨"crying", "audio", -1, 35, ""⟩ := by
    have hr1 : round3 (-1 : ℚ) = -1 := dec3_round3_eq ⟨-1000, by norm_num⟩
    have hr2 : round3 (35 : ℚ) = 35 := dec3_round3_eq ⟨35000, by norm_num⟩
    show (⟨"crying", "audio", round3 (-1 : ℚ), round3 (35 : ℚ), ""⟩ :
      Span) = _
    rw [hr1, hr2]
  have hf : ((adjustItem ⟨"crying", "audio", some (-1), some 35, ""⟩).bind
      fun s => if detectionFilter s then some (round3Span s) else none) =
      some ⟨"crying", "audio", -1, 35, ""⟩ := by
    rw [hadj, Option.some_bind, if_pos hfil, hround]
  have hraw : rawDetections cRunC1 =
      [⟨"crying", "audio", -1, 35, ""⟩] := by
    have hdur : cRunC1.durationSec = 20 := rfl
    rw [rawDetections, hdur, hseg]
    have henum : ([⟨0, 20⟩] : List Segment).enum = [(0, ⟨0, 20⟩)] := rfl
    rw [henum]
    have hdet : cRunC1.detect 0 = .items
        [⟨"crying", "audio", some (-1), some 35, ""⟩] := rfl
    simp only [List.flatMap_cons, List.flatMap_nil, List.append_nil, hdet]
    simp only [processDetections, List.map_cons, List.map_nil, hshift]
    simp only [List.filterMap_cons, List.filterMap_nil]
    rw [hf]
  refine ⟨⟨"crying", "audio", -1, 35, ""⟩, ?_, by norm_num, ?_⟩
  · have hmem : (⟨"crying", "audio", -1, 35, ""⟩ : Span) ∈
        rawDetections cRunC1 := by
      rw [hraw]; exact List.mem_singleton_self _
    exact List.mem_append_left _ (List.mem_append_left _ hmem)
  · show (20 : ℚ) < 35
    norm_num

end Carecam
